import Mathlib

/-!
Shallow embedding of the cross-lingual alignment engine of the `rosetta`
repository (`src/rosetta_dict/pipelines/language_alignment/nodes.py`).

DataFrames are modelled as Lean lists of records (one record per row, with
the schema the pipeline expects); `rapidfuzz.fuzz.ratio` is modelled by the
indel-based similarity it computes, `200 * LCS(s, t) / (|s| + |t|)` on a
0–100 scale (100 for two empty strings), as an exact rational; and
`rapidfuzz.process.extractOne` is modelled as the first best-scoring choice
at or above the cutoff.
-/

namespace Rosetta

/-- One DP step for the longest-common-subsequence table: given the previous
row (already shifted so that its head is the entry directly above the cell
being computed), the diagonal and left neighbours, produce the next row. -/
def lcsStepAux (a : Char) : List Char → List Nat → Nat → Nat → List Nat
  | [], _, _, _ => []
  | b :: bs, prev, diag, left =>
    let up := prev.headD 0
    let cur := if a = b then diag + 1 else max left up
    cur :: lcsStepAux a bs prev.tail up cur

/-- Length of a longest common subsequence of two character lists, computed
row by row (fully structural, so the kernel can evaluate it). -/
def lcsChars (as bs : List Char) : Nat :=
  (as.foldl (fun prev a => lcsStepAux a bs prev 0 0) (List.replicate bs.length 0)).getLastD 0

/-- `rapidfuzz.fuzz.ratio s t`: the normalized indel similarity of `s` and
`t` on a 0–100 scale, `200 * LCS(s,t) / (|s| + |t|)`, and `100` when both
strings are empty.  (rapidfuzz returns a float; the exact value is this
rational.) -/
def fuzzRatioScore (s t : String) : ℚ :=
  if s.data.length + t.data.length = 0 then 100
  else (200 * lcsChars s.data t.data : ℚ) / ((s.data.length + t.data.length : ℕ) : ℚ)

/-- One comparison step of the best-match search of
`rapidfuzz.process.extractOne`: the running best is replaced only by a
strictly better score (so among equal scores the first choice wins), and a
score below the cutoff never becomes the running best. -/
def extractStep (query : String) (cutoff : ℚ) (best : Option (String × ℚ))
    (c : String) : Option (String × ℚ) :=
  match best with
  | none =>
    if cutoff ≤ fuzzRatioScore query c then some (c, fuzzRatioScore query c) else none
  | some (b, bs) =>
    if bs < fuzzRatioScore query c then some (c, fuzzRatioScore query c) else some (b, bs)

/-- `rapidfuzz.process.extractOne query choices score_cutoff=cutoff` with
`scorer=fuzz.ratio`: the first choice attaining the maximal score, provided
that score is at least `cutoff`; `none` otherwise. -/
def extractOne (query : String) (choices : List String) (cutoff : ℚ) :
    Option (String × ℚ) :=
  choices.foldl (extractStep query cutoff) none

/-- A row of the Spanish source DataFrame (`spanish_df`). -/
structure EsEntry where
  word : String
  ipa : String
  pos : String
  definitions : List String
  translations_he : List String
deriving Repr, DecidableEq

/-- A row of the Hebrew source DataFrame (`hebrew_df`). -/
structure HeEntry where
  word : String
  ipa : String
  definitions : List String
deriving Repr, DecidableEq

/-- A row of the English-Wiktionary bridge DataFrame (`bridge_df`). -/
structure BridgeEntry where
  word : String
  source_lang : String
  translations_he : List String
deriving Repr, DecidableEq

/-- The `match_type` field of an alignment row.  In the Python code this is
the string `"direct"`, `"triangulation"`, or `f"fuzzy_{best_score}"`; the
numeric score interpolated into the fuzzy form is carried here as the
constructor argument. -/
inductive MatchType where
  | direct
  | triangulation
  | fuzzy (score : ℚ)
deriving Repr, DecidableEq

/-- An alignment row as appended to `alignments` by `align_languages`.
`confidence` is `none` for rows whose dict has no `"confidence"` key. -/
structure Alignment where
  es_word : String
  es_ipa : String
  es_pos : String
  es_definition : String
  he_word : String
  he_ipa : String
  he_definition : String
  sense_id : Nat
  match_type : MatchType
  confidence : Option ℚ
deriving Repr, DecidableEq

/-- `es_defs[i] if i < len(es_defs) else (es_defs[0] if es_defs else "")`. -/
def esDefAt (defs : List String) (i : Nat) : String :=
  if i < defs.length then defs.getD i "" else defs.headD ""

/-- `he_defs[0] if he_defs else ""`. -/
def hePrimaryDef (he : HeEntry) : String :=
  he.definitions.headD ""

/-- `hebrew_df[hebrew_df["word"] == w]` followed by `.iloc[0]`: the first
Hebrew row whose `word` equals `w`, if any. -/
def heLookup (hebrew : List HeEntry) (w : String) : Option HeEntry :=
  hebrew.find? (fun h => h.word == w)

/-- The row dict appended by Strategy 1 (direct translations). -/
def mkDirect (es : EsEntry) (i : Nat) (hw : String) (he : HeEntry) : Alignment :=
  { es_word := es.word
    es_ipa := es.ipa
    es_pos := es.pos
    es_definition := esDefAt es.definitions i
    he_word := hw
    he_ipa := he.ipa
    he_definition := hePrimaryDef he
    sense_id := i + 1
    match_type := .direct
    confidence := none }

/-- Strategy 1 for one Spanish row: `for i, he_word in
enumerate(he_translations)`, emit a direct alignment for each translation
that is an exact headword of the Hebrew collection. -/
def directForEntry (hebrew : List HeEntry) (es : EsEntry) : List Alignment :=
  es.translations_he.enum.filterMap fun iw =>
    (heLookup hebrew iw.2).map (mkDirect es iw.1 iw.2)

/-- Strategy 1 over the whole Spanish collection, in row order. -/
def directAlignments (spanish : List EsEntry) (hebrew : List HeEntry) :
    List Alignment :=
  spanish.flatMap (directForEntry hebrew)

/-- The row dict appended by Strategy 2 (triangulation). -/
def mkTri (es : EsEntry) (hw : String) (he : HeEntry) : Alignment :=
  { es_word := es.word
    es_ipa := es.ipa
    es_pos := es.pos
    es_definition := es.definitions.headD ""
    he_word := hw
    he_ipa := he.ipa
    he_definition := hePrimaryDef he
    sense_id := 1
    match_type := .triangulation
    confidence := none }

/-- The inner loop of Strategy 2: scan the bridge entry's Hebrew
translations in order and return the first one that is an exact headword of
the Hebrew collection (the `break` after the first hit). -/
def triCandidate (hebrew : List HeEntry) (b : BridgeEntry) :
    Option (String × HeEntry) :=
  b.translations_he.findSome? fun hw => (heLookup hebrew hw).map (fun he => (hw, he))

/-- Strategy 2 (triangulation) over the Spanish rows, threading the mutable
`aligned_es_words` set (modelled as a list of words): a row whose word is
already aligned is skipped; a successful triangulation adds its word to the
set, so later rows with the same headword are skipped too. -/
def triPass (hebrew : List HeEntry) (esBridge : List BridgeEntry) :
    List EsEntry → List String → List Alignment
  | [], _ => []
  | es :: rest, aligned =>
    if es.word ∈ aligned then triPass hebrew esBridge rest aligned
    else
      match esBridge.find? (fun b => b.word == es.word) with
      | none => triPass hebrew esBridge rest aligned
      | some b =>
        match triCandidate hebrew b with
        | none => triPass hebrew esBridge rest aligned
        | some (hw, he) => mkTri es hw he :: triPass hebrew esBridge rest (es.word :: aligned)

/-- `" ".join(es_defs)`. -/
def esDefText (es : EsEntry) : String :=
  String.intercalate " " es.definitions

/-- `" ".join(he_defs)`. -/
def heDefText (he : HeEntry) : String :=
  String.intercalate " " he.definitions

/-- `he_definitions_list`: the concatenated-definitions string of every
Hebrew row with a non-empty definitions list, in row order. -/
def heDefinitionsList (hebrew : List HeEntry) : List String :=
  (hebrew.filter (fun h => !h.definitions.isEmpty)).map heDefText

/-- `he_candidates_dict[key]`: the dict maps each concatenated-definitions
string to the row it was built from, later rows overwriting earlier ones,
so lookup returns the **last** qualifying row with that string. -/
def heCandidatesLookup (hebrew : List HeEntry) (key : String) : Option HeEntry :=
  (hebrew.filter (fun h => !h.definitions.isEmpty)).reverse.find?
    (fun h => heDefText h == key)

/-- The row dict appended by Strategy 3 (fuzzy matching); the only row kind
carrying a `confidence` value, `best_score / 100.0`. -/
def mkFuzzy (es : EsEntry) (he : HeEntry) (score : ℚ) : Alignment :=
  { es_word := es.word
    es_ipa := es.ipa
    es_pos := es.pos
    es_definition := es.definitions.headD ""
    he_word := he.word
    he_ipa := he.ipa
    he_definition := hePrimaryDef he
    sense_id := 1
    match_type := .fuzzy score
    confidence := some (score / 100) }

/-- Strategy 3 for one remaining Spanish row: skip it when its definitions
list is empty, otherwise run `process.extractOne` with cutoff 80 over the
Hebrew candidate strings and, on a hit, emit the fuzzy alignment built from
the dict entry for the best-matching string. -/
def fuzzyForEntry (hebrew : List HeEntry) (texts : List String) (es : EsEntry) :
    List Alignment :=
  if es.definitions.isEmpty then []
  else
    match extractOne (esDefText es) texts 80 with
    | none => []
    | some (t, score) =>
      match heCandidatesLookup hebrew t with
      | none => []
      | some he => [mkFuzzy es he score]

/-- Strategy 3 over the remaining Spanish rows (those whose word is not in
`aligned_es_words`), in row order.  The modelled schema has no
`frequency_rank` column, so the rows are processed in source order. -/
def fuzzyPass (spanish : List EsEntry) (hebrew : List HeEntry)
    (aligned : List String) : List Alignment :=
  (spanish.filter (fun es => !decide (es.word ∈ aligned))).flatMap
    (fuzzyForEntry hebrew (heDefinitionsList hebrew))

/-- The Strategy-2 portion of the output: nothing when no bridge collection
was passed (`bridge_df is None`) or it is empty, otherwise `triPass` over
the bridge's `source_lang == "es"` rows, starting from the set of words
already aligned by Strategy 1. -/
def triPart (spanish : List EsEntry) (hebrew : List HeEntry)
    (bridge : Option (List BridgeEntry)) : List Alignment :=
  match bridge with
  | none => []
  | some bs =>
    if bs.isEmpty then []
    else triPass hebrew (bs.filter (fun b => b.source_lang == "es")) spanish
      ((directAlignments spanish hebrew).map (fun a => a.es_word))

/-- `align_languages(spanish_df, hebrew_df, bridge_df)`: Strategy 1, then
Strategy 2 (only when a non-empty bridge collection was passed, over its
`source_lang == "es"` rows, skipping words aligned by Strategy 1), then
Strategy 3 (skipping words aligned by Strategies 1–2), with the emitted
rows concatenated in that order. -/
def align_languages (spanish : List EsEntry) (hebrew : List HeEntry)
    (bridge : Option (List BridgeEntry)) : List Alignment :=
  let step12 := directAlignments spanish hebrew ++ triPart spanish hebrew bridge
  step12 ++ fuzzyPass spanish hebrew (step12.map (fun a => a.es_word))

/-- A row of the sentence-examples DataFrame (`examples_df`), with the
sentence texts and their pre-tokenized word lists. -/
structure ExampleRow where
  es : String
  he : String
  es_words : List String
  he_words : List String
deriving Repr, DecidableEq

/-- An output row of `enrich_entries`: the alignment row's fields carried
through unchanged, plus the added `examples` field. -/
structure EnrichedRow where
  alignment : Alignment
  examples : List (String × String)
deriving Repr, DecidableEq

/-- The examples attached to one alignment row: the corpus rows whose
Spanish token list contains `es_word` and whose Hebrew token list contains
`he_word`, in corpus order, projected to their `{es, he}` sentence texts. -/
def matchingExamples (examples : List ExampleRow) (a : Alignment) :
    List (String × String) :=
  (examples.filter
      (fun ex => decide (a.es_word ∈ ex.es_words) && decide (a.he_word ∈ ex.he_words))).map
    (fun ex => (ex.es, ex.he))

/-- `enrich_entries(aligned_df, examples_df)`. -/
def enrich_entries (aligned : List Alignment) (examples : List ExampleRow) :
    List EnrichedRow :=
  aligned.map fun a => { alignment := a, examples := matchingExamples examples a }

/-- The outer clustering loop of `cluster_polysemic_senses` for one word
group: iterate over the sense indices in order; an index already in
`used_indices` is skipped; otherwise it seeds a new cluster and absorbs
every later not-yet-used index whose definition scores strictly above 70
against the seed's definition. -/
def greedyLoop (defs : List String) : List Nat → List Nat → List (List Nat)
  | [], _ => []
  | i :: rest, used =>
    if i ∈ used then greedyLoop defs rest used
    else
      let mates := rest.filter
        (fun j => !decide (j ∈ used) &&
          decide (70 < fuzzRatioScore (defs.getD i "") (defs.getD j "")))
      (i :: mates) :: greedyLoop defs rest (used ++ i :: mates)

/-- The clusters built for one word group, in formation order. -/
def clustersOf (defs : List String) : List (List Nat) :=
  greedyLoop defs (List.range defs.length) []

/-- The `semantic_cluster` values of one word group, in group row order: the
default 1 for groups of at most one row and for groups of more than 10 rows
(both skipped by the code), otherwise 1 plus the position of the cluster
containing each index (`enumerate(clusters, 1)`). -/
def clusterIdsGroup (defs : List String) : List Nat :=
  let n := defs.length
  if n ≤ 1 ∨ 10 < n then List.replicate n 1
  else
    (List.range n).map fun idx =>
      match (clustersOf defs).findIdx? (fun c => decide (idx ∈ c)) with
      | some k => k + 1
      | none => 1

/-- The positions (row indices) of the group of rows sharing the word of
interest, in original row order — pandas `groupby` preserves the original
order inside each group. -/
def groupIndices (rows : List (String × String)) (w : String) : List Nat :=
  (List.range rows.length).filter (fun j => (rows.getD j ("", "")).1 == w)

/-- `cluster_polysemic_senses(enriched_df)`, projected to the data it reads
and writes: from the `(es_word, es_definition)` column pair of the input
rows, the `semantic_cluster` column it adds, in original row order (all
other columns are carried through unchanged by the code). -/
def cluster_polysemic_senses (rows : List (String × String)) : List Nat :=
  (List.range rows.length).map fun k =>
    let w := (rows.getD k ("", "")).1
    let g := groupIndices rows w
    let defs := g.map (fun j => (rows.getD j ("", "")).2)
    match g.findIdx? (fun j => j == k) with
    | some p => (clusterIdsGroup defs).getD p 1
    | none => 1

/-- One step of the clustering algorithm as the specification words it:
sense `i`, when not yet assigned, seeds the next cluster and every later
not-yet-assigned sense whose definition is strictly-more-than-70 similar to
sense `i`'s definition joins that cluster.  (Spec-side formulation, used to
state the refinement claim about `cluster_polysemic_senses`.) -/
def specStep (defs : List String) (n : Nat) (st : (Nat → Option Nat) × Nat)
    (i : Nat) : (Nat → Option Nat) × Nat :=
  let assign := st.1
  let next := st.2
  if (assign i).isSome then st
  else
    (fun j =>
      if j = i then some next
      else if i < j ∧ j < n ∧ assign j = none ∧
          70 < fuzzRatioScore (defs.getD i "") (defs.getD j "") then some next
      else assign j,
     next + 1)

/-- The cluster ids of one word group as the specification describes them:
more than 10 senses keep the default cluster 1; otherwise the senses are
processed in order by `specStep` with cluster ids handed out 1, 2, … in
formation order. -/
def specClusterIds (defs : List String) : List Nat :=
  let n := defs.length
  if 10 < n then List.replicate n 1
  else
    let assign := ((List.range n).foldl (specStep defs n) (fun _ => none, 1)).1
    (List.range n).map (fun j => (assign j).getD 1)

/-! ### Bounds on the LCS computation and the similarity score -/

lemma getD_tail_nat (l : List Nat) (j : Nat) : l.tail.getD j 0 = l.getD (j + 1) 0 := by
  cases l <;> rfl

lemma lcsStepAux_cons (a b : Char) (bs : List Char) (prev : List Nat)
    (diag left : Nat) :
    lcsStepAux a (b :: bs) prev diag left =
      (if a = b then diag + 1 else max left (prev.headD 0)) ::
        lcsStepAux a bs prev.tail (prev.headD 0)
          (if a = b then diag + 1 else max left (prev.headD 0)) := rfl

lemma lcsStepAux_le (a : Char) :
    ∀ (bs : List Char) (prev : List Nat) (diag left k : Nat),
      diag ≤ k → left ≤ k + 1 → (∀ x ∈ prev, x ≤ k) →
      ∀ x ∈ lcsStepAux a bs prev diag left, x ≤ k + 1 := by
  intro bs
  induction bs with
  | nil => intro prev diag left k _ _ _ x hx; simp [lcsStepAux] at hx
  | cons b bs ih =>
    intro prev diag left k hd hl hp x hx
    have hup : prev.headD 0 ≤ k := by
      cases prev with
      | nil => exact Nat.zero_le k
      | cons p ps => exact hp p (List.mem_cons_self p ps)
    have hcur : (if a = b then diag + 1 else max left (prev.headD 0)) ≤ k + 1 := by
      split
      · omega
      · exact max_le hl (le_trans hup (Nat.le_succ k))
    have htail : ∀ y ∈ prev.tail, y ≤ k := fun y hy => hp y (List.mem_of_mem_tail hy)
    rw [lcsStepAux_cons] at hx
    rcases List.mem_cons.mp hx with rfl | hx
    · exact hcur
    · exact ih prev.tail (prev.headD 0) _ k hup hcur htail x hx

lemma lcsStepAux_getD_le (a : Char) :
    ∀ (bs : List Char) (prev : List Nat) (diag left d : Nat),
      diag ≤ d → left ≤ d → (∀ j, prev.getD j 0 ≤ d + j + 1) →
      ∀ j, (lcsStepAux a bs prev diag left).getD j 0 ≤ d + j + 1 := by
  intro bs
  induction bs with
  | nil => intro prev diag left d _ _ _ j; simp [lcsStepAux, List.getD]
  | cons b bs ih =>
    intro prev diag left d hd hl hp j
    have hup : prev.headD 0 ≤ d + 1 := by
      have h0 := hp 0
      cases prev with
      | nil => exact Nat.zero_le _
      | cons p ps => simpa using h0
    have hcur : (if a = b then diag + 1 else max left (prev.headD 0)) ≤ d + 1 := by
      split
      · omega
      · exact max_le (by omega) hup
    have htail : ∀ j', prev.tail.getD j' 0 ≤ (d + 1) + j' + 1 := by
      intro j'
      rw [getD_tail_nat]
      have := hp (j' + 1)
      omega
    have hrec := ih prev.tail (prev.headD 0)
      (if a = b then diag + 1 else max left (prev.headD 0)) (d + 1) hup hcur htail
    rw [lcsStepAux_cons]
    cases j with
    | zero => simpa using hcur
    | succ j =>
      rw [List.getD_cons_succ]
      have := hrec j
      omega

lemma lcsStepAux_length (a : Char) :
    ∀ (bs : List Char) (prev : List Nat) (diag left : Nat),
      (lcsStepAux a bs prev diag left).length = bs.length := by
  intro bs
  induction bs with
  | nil => intro prev diag left; rfl
  | cons b bs ih =>
    intro prev diag left
    rw [lcsStepAux_cons, List.length_cons, ih, List.length_cons]

lemma lcsFold_le (bs : List Char) :
    ∀ (as : List Char) (prev : List Nat) (k : Nat),
      (∀ x ∈ prev, x ≤ k) →
      ∀ x ∈ as.foldl (fun p a => lcsStepAux a bs p 0 0) prev, x ≤ k + as.length := by
  intro as
  induction as with
  | nil => intro prev k hp x hx; simpa using hp x hx
  | cons a as ih =>
    intro prev k hp x hx
    rw [List.foldl_cons] at hx
    have hstep := lcsStepAux_le a bs prev 0 0 k (Nat.zero_le k) (Nat.zero_le _) hp
    have := ih (lcsStepAux a bs prev 0 0) (k + 1) hstep x hx
    rw [List.length_cons]
    omega

lemma lcsFold_getD_le (bs : List Char) :
    ∀ (as : List Char) (prev : List Nat),
      (∀ j, prev.getD j 0 ≤ j + 1) →
      ∀ j, (as.foldl (fun p a => lcsStepAux a bs p 0 0) prev).getD j 0 ≤ j + 1 := by
  intro as
  induction as with
  | nil => intro prev hp j; simpa using hp j
  | cons a as ih =>
    intro prev hp j
    rw [List.foldl_cons]
    have hstep : ∀ j', (lcsStepAux a bs prev 0 0).getD j' 0 ≤ j' + 1 := by
      intro j'
      have := lcsStepAux_getD_le a bs prev 0 0 0 (le_refl 0) (le_refl 0)
        (fun j'' => by have := hp j''; omega) j'
      omega
    exact ih (lcsStepAux a bs prev 0 0) hstep j

lemma lcsFold_length (bs : List Char) :
    ∀ (as : List Char) (prev : List Nat), prev.length = bs.length →
      (as.foldl (fun p a => lcsStepAux a bs p 0 0) prev).length = bs.length := by
  intro as
  induction as with
  | nil => intro prev hp; simpa using hp
  | cons a as ih =>
    intro prev _
    rw [List.foldl_cons]
    exact ih (lcsStepAux a bs prev 0 0) (lcsStepAux_length a bs prev 0 0)

lemma getLastD_cases (l : List Nat) (d : Nat) : l.getLastD d = d ∨ l.getLastD d ∈ l := by
  induction l generalizing d with
  | nil => exact Or.inl rfl
  | cons a l ih =>
    rw [List.getLastD_cons]
    rcases ih a with h | h
    · rw [h]; exact Or.inr (List.mem_cons_self a l)
    · exact Or.inr (List.mem_cons_of_mem a h)

lemma getD_replicate_zero (n j : Nat) : (List.replicate n (0 : Nat)).getD j 0 = 0 := by
  induction n generalizing j with
  | zero => rfl
  | succ n ih =>
    cases j with
    | zero => rfl
    | succ j => simpa [List.replicate] using ih j

lemma lcsChars_le_left (as bs : List Char) : lcsChars as bs ≤ as.length := by
  unfold lcsChars
  have hinit : ∀ x ∈ List.replicate bs.length (0 : Nat), x ≤ 0 := by
    intro x hx
    simp [List.eq_of_mem_replicate hx]
  have hfold := lcsFold_le bs as (List.replicate bs.length 0) 0 hinit
  rcases getLastD_cases (as.foldl (fun p a => lcsStepAux a bs p 0 0)
      (List.replicate bs.length 0)) 0 with h | h
  · omega
  · have := hfold _ h
    omega

lemma lcsChars_le_right (as bs : List Char) : lcsChars as bs ≤ bs.length := by
  unfold lcsChars
  set row := as.foldl (fun p a => lcsStepAux a bs p 0 0) (List.replicate bs.length 0)
    with hrow
  have hlen : row.length = bs.length :=
    lcsFold_length bs as _ (List.length_replicate _ _)
  have hpos : ∀ j, row.getD j 0 ≤ j + 1 :=
    lcsFold_getD_le bs as _ (fun j => by rw [getD_replicate_zero]; exact Nat.zero_le _)
  rcases Nat.eq_zero_or_pos bs.length with hz | hbs
  · have : row = [] := List.eq_nil_of_length_eq_zero (hlen.trans hz)
    rw [this]
    simpa using Nat.zero_le _
  · have hlast : row.getLastD 0 = row.getD (row.length - 1) 0 := by
      rw [List.getLastD_eq_getLast?, List.getLast?_eq_getElem?,
        List.getD_eq_getElem?_getD]
    rw [hlast]
    have := hpos (row.length - 1)
    omega

lemma two_lcs_le (as bs : List Char) : 2 * lcsChars as bs ≤ as.length + bs.length := by
  have h1 := lcsChars_le_left as bs
  have h2 := lcsChars_le_right as bs
  omega

lemma fuzzRatioScore_nonneg (s t : String) : 0 ≤ fuzzRatioScore s t := by
  unfold fuzzRatioScore
  split
  · norm_num
  · positivity

lemma fuzzRatioScore_le_100 (s t : String) : fuzzRatioScore s t ≤ 100 := by
  unfold fuzzRatioScore
  split
  · norm_num
  · rename_i hne
    have hpos : (0 : ℚ) < ((s.data.length + t.data.length : ℕ) : ℚ) := by
      have : 0 < s.data.length + t.data.length := Nat.pos_of_ne_zero hne
      exact_mod_cast this
    rw [div_le_iff₀ hpos]
    have h := two_lcs_le s.data t.data
    have h' : ((2 * lcsChars s.data t.data : ℕ) : ℚ) ≤
        ((s.data.length + t.data.length : ℕ) : ℚ) := by exact_mod_cast h
    push_cast at h'
    push_cast
    linarith

/-! ### Properties of the extractOne model -/

lemma extractStep_inv (query : String) (cutoff : ℚ) (acc : Option (String × ℚ))
    (c : String)
    (hacc : ∀ c0 q0, acc = some (c0, q0) → q0 = fuzzRatioScore query c0 ∧ cutoff ≤ q0) :
    ∀ c1 q1, extractStep query cutoff acc c = some (c1, q1) →
      q1 = fuzzRatioScore query c1 ∧ cutoff ≤ q1 := by
  intro c1 q1 h
  cases acc with
  | none =>
    simp only [extractStep] at h
    split at h
    · rename_i hc
      simp only [Option.some.injEq, Prod.mk.injEq] at h
      obtain ⟨rfl, rfl⟩ := h
      exact ⟨rfl, hc⟩
    · exact Option.noConfusion h
  | some p =>
    obtain ⟨c0, q0⟩ := p
    obtain ⟨hq0, hc0⟩ := hacc c0 q0 rfl
    simp only [extractStep] at h
    split at h
    · rename_i hlt
      simp only [Option.some.injEq, Prod.mk.injEq] at h
      obtain ⟨rfl, rfl⟩ := h
      exact ⟨rfl, le_of_lt (lt_of_le_of_lt hc0 hlt)⟩
    · simp only [Option.some.injEq, Prod.mk.injEq] at h
      obtain ⟨rfl, rfl⟩ := h
      exact ⟨hq0, hc0⟩

lemma extractStep_cases (query : String) (cutoff : ℚ) (acc : Option (String × ℚ))
    (c c1 : String) (q1 : ℚ) (h : extractStep query cutoff acc c = some (c1, q1)) :
    acc = some (c1, q1) ∨ c1 = c := by
  cases acc with
  | none =>
    simp only [extractStep] at h
    split at h
    · simp only [Option.some.injEq, Prod.mk.injEq] at h
      exact Or.inr h.1.symm
    · exact Option.noConfusion h
  | some p =>
    obtain ⟨c0, q0⟩ := p
    simp only [extractStep] at h
    split at h
    · simp only [Option.some.injEq, Prod.mk.injEq] at h
      exact Or.inr h.1.symm
    · exact Or.inl h

lemma extractFold_some (query : String) (cutoff : ℚ) :
    ∀ (cs : List String) (acc : Option (String × ℚ)),
      (∀ c0 q0, acc = some (c0, q0) → q0 = fuzzRatioScore query c0 ∧ cutoff ≤ q0) →
      ∀ t s, cs.foldl (extractStep query cutoff) acc = some (t, s) →
        (acc = some (t, s) ∨ t ∈ cs) ∧ s = fuzzRatioScore query t ∧ cutoff ≤ s := by
  intro cs
  induction cs with
  | nil =>
    intro acc hacc t s h
    rw [List.foldl_nil] at h
    exact ⟨Or.inl h, hacc t s h⟩
  | cons c cs ih =>
    intro acc hacc t s h
    rw [List.foldl_cons] at h
    have hacc' := extractStep_inv query cutoff acc c hacc
    obtain ⟨hmem, hrest⟩ := ih (extractStep query cutoff acc c) hacc' t s h
    refine ⟨?_, hrest⟩
    rcases hmem with hstep | hmem
    · rcases extractStep_cases query cutoff acc c t s hstep with hacc0 | rfl
      · exact Or.inl hacc0
      · exact Or.inr (List.mem_cons_self _ _)
    · exact Or.inr (List.mem_cons_of_mem _ hmem)

/-- Soundness of the best-match search: a returned pair is one of the
choices, carries its exact similarity score, and clears the cutoff. -/
lemma extractOne_some (query : String) (cs : List String) (cutoff : ℚ)
    (t : String) (s : ℚ) (h : extractOne query cs cutoff = some (t, s)) :
    t ∈ cs ∧ s = fuzzRatioScore query t ∧ cutoff ≤ s := by
  unfold extractOne at h
  obtain ⟨hmem, hrest⟩ := extractFold_some query cutoff cs none (by simp) t s h
  rcases hmem with hnone | hmem
  · exact absurd hnone (by simp)
  · exact ⟨hmem, hrest⟩

/-! ### List helpers: enumeration and first-hit search -/

lemma mem_enumFrom_of_get? {α : Type _} :
    ∀ (l : List α) (j k : Nat) (x : α), l.get? k = some x →
      (j + k, x) ∈ List.enumFrom j l := by
  intro l
  induction l with
  | nil => intro j k x h; simp at h
  | cons a as ih =>
    intro j k x h
    cases k with
    | zero =>
      rw [List.get?_cons_zero, Option.some.injEq] at h
      subst h
      simp [List.enumFrom]
    | succ k =>
      rw [List.get?_cons_succ] at h
      have := ih (j + 1) k x h
      have hidx : j + (k + 1) = (j + 1) + k := by omega
      rw [hidx]
      exact List.mem_cons_of_mem _ this

lemma mem_enum_iff_get? {α : Type _} (l : List α) (i : Nat) (x : α) :
    (i, x) ∈ l.enum ↔ l.get? i = some x := by
  constructor
  · intro h
    obtain ⟨h1, h2⟩ := List.mem_enum h
    rw [List.get?_eq_getElem?]
    exact List.getElem?_eq_some.mpr ⟨h1, h2.symm⟩
  · intro h
    simpa using mem_enumFrom_of_get? l 0 i x h

lemma findSome?_eq_some_first {α β : Type _} (f : α → Option β) :
    ∀ (l : List α) (v : β), l.findSome? f = some v →
      ∃ k x, l.get? k = some x ∧ f x = some v ∧
        ∀ k' x', k' < k → l.get? k' = some x' → f x' = none := by
  intro l
  induction l with
  | nil => intro v h; simp at h
  | cons a as ih =>
    intro v h
    rw [List.findSome?_cons] at h
    cases hf : f a with
    | some b =>
      rw [hf] at h
      have hb : b = v := by simpa using h
      subst hb
      refine ⟨0, a, rfl, hf, ?_⟩
      intro k' x' hk' _
      omega
    | none =>
      rw [hf] at h
      have h' : List.findSome? f as = some v := by simpa using h
      obtain ⟨k, x, h1, h2, h3⟩ := ih v h'
      refine ⟨k + 1, x, by rw [List.get?_cons_succ]; exact h1, h2, ?_⟩
      intro k' x' hk' hg
      cases k' with
      | zero =>
        rw [List.get?_cons_zero, Option.some.injEq] at hg
        rw [← hg]
        exact hf
      | succ k' =>
        rw [List.get?_cons_succ] at hg
        exact h3 k' x' (by omega) hg

/-! ### Strategy 1 lemmas -/

lemma mem_directForEntry {hebrew : List HeEntry} {es : EsEntry} {a : Alignment} :
    a ∈ directForEntry hebrew es ↔
      ∃ i hw he, es.translations_he.get? i = some hw ∧
        heLookup hebrew hw = some he ∧ a = mkDirect es i hw he := by
  unfold directForEntry
  rw [List.mem_filterMap]
  constructor
  · rintro ⟨⟨i, hw⟩, hmem, hmap⟩
    rw [Option.map_eq_some'] at hmap
    obtain ⟨he, hlk, rfl⟩ := hmap
    exact ⟨i, hw, he, (mem_enum_iff_get? _ _ _).mp hmem, hlk, rfl⟩
  · rintro ⟨i, hw, he, hget, hlk, rfl⟩
    exact ⟨(i, hw), (mem_enum_iff_get? _ _ _).mpr hget, by rw [hlk]; rfl⟩

lemma mem_directAlignments {spanish : List EsEntry} {hebrew : List HeEntry}
    {a : Alignment} :
    a ∈ directAlignments spanish hebrew ↔
      ∃ es ∈ spanish, a ∈ directForEntry hebrew es := by
  unfold directAlignments
  exact List.mem_flatMap

lemma directForEntry_es_word {hebrew : List HeEntry} {es : EsEntry} {a : Alignment}
    (h : a ∈ directForEntry hebrew es) : a.es_word = es.word := by
  obtain ⟨i, hw, he, _, _, rfl⟩ := mem_directForEntry.mp h
  rfl

lemma directForEntry_match_type {hebrew : List HeEntry} {es : EsEntry} {a : Alignment}
    (h : a ∈ directForEntry hebrew es) : a.match_type = MatchType.direct := by
  obtain ⟨i, hw, he, _, _, rfl⟩ := mem_directForEntry.mp h
  rfl

/-! ### Strategy 2 lemmas -/

lemma mem_triPass (hebrew : List HeEntry) (esBridge : List BridgeEntry) :
    ∀ (sp : List EsEntry) (aligned : List String) (a : Alignment),
      a ∈ triPass hebrew esBridge sp aligned →
      ∃ es ∈ sp, es.word ∉ aligned ∧
        ∃ b, esBridge.find? (fun x => x.word == es.word) = some b ∧
          ∃ hw he, triCandidate hebrew b = some (hw, he) ∧ a = mkTri es hw he := by
  intro sp
  induction sp with
  | nil => intro aligned a h; simp [triPass] at h
  | cons es rest ih =>
    intro aligned a h
    simp only [triPass] at h
    split at h
    · obtain ⟨es', hmem, hnal, hrest⟩ := ih aligned a h
      exact ⟨es', List.mem_cons_of_mem _ hmem, hnal, hrest⟩
    · rename_i hnotmem
      split at h
      · obtain ⟨es', hmem, hnal, hrest⟩ := ih aligned a h
        exact ⟨es', List.mem_cons_of_mem _ hmem, hnal, hrest⟩
      · rename_i b hfind
        split at h
        · obtain ⟨es', hmem, hnal, hrest⟩ := ih aligned a h
          exact ⟨es', List.mem_cons_of_mem _ hmem, hnal, hrest⟩
        · rename_i p hw he hcand
          rcases List.mem_cons.mp h with rfl | h
          · exact ⟨es, List.mem_cons_self _ _, hnotmem, b, hfind, hw, he, hcand, rfl⟩
          · obtain ⟨es', hmem, hnal, hrest⟩ := ih _ a h
            refine ⟨es', List.mem_cons_of_mem _ hmem, ?_, hrest⟩
            intro hc
            exact hnal (List.mem_cons_of_mem _ hc)

lemma triPass_countP_zero (hebrew : List HeEntry) (esBridge : List BridgeEntry)
    (w : String) :
    ∀ (sp : List EsEntry) (aligned : List String), w ∈ aligned →
      (triPass hebrew esBridge sp aligned).countP (fun a => a.es_word == w) = 0 := by
  intro sp
  induction sp with
  | nil => intro aligned _; rfl
  | cons es rest ih =>
    intro aligned hal
    simp only [triPass]
    split
    · exact ih aligned hal
    · rename_i hnot
      split
      · exact ih aligned hal
      · split
        · exact ih aligned hal
        · rename_i p hw he hcand
          rw [List.countP_cons]
          have hne : ¬ (((mkTri es hw he).es_word == w) = true) := by
            simp only [mkTri, beq_iff_eq]
            intro heq
            exact hnot (heq ▸ hal)
          rw [ih (es.word :: aligned) (List.mem_cons_of_mem _ hal)]
          simp [hne]

lemma triPass_countP_le_one (hebrew : List HeEntry) (esBridge : List BridgeEntry)
    (w : String) :
    ∀ (sp : List EsEntry) (aligned : List String),
      (triPass hebrew esBridge sp aligned).countP (fun a => a.es_word == w) ≤ 1 := by
  intro sp
  induction sp with
  | nil => intro aligned; simp [triPass]
  | cons es rest ih =>
    intro aligned
    simp only [triPass]
    split
    · exact ih aligned
    · split
      · exact ih aligned
      · split
        · exact ih aligned
        · rename_i p hw he hcand
          rw [List.countP_cons]
          by_cases hew : es.word = w
          · have h0 := triPass_countP_zero hebrew esBridge w rest (es.word :: aligned)
              (hew ▸ List.mem_cons_self _ _)
            rw [h0]
            split <;> omega
          · have hne : ¬ (((mkTri es hw he).es_word == w) = true) := by
              simp only [mkTri, beq_iff_eq]
              exact hew
            rw [if_neg hne]
            have := ih (es.word :: aligned)
            omega

/-! ### Strategy 3 lemmas -/

lemma heCandidatesLookup_mem {hebrew : List HeEntry} {t : String} {he : HeEntry}
    (h : heCandidatesLookup hebrew t = some he) :
    he ∈ hebrew ∧ he.definitions ≠ [] ∧ heDefText he = t := by
  unfold heCandidatesLookup at h
  have hmem := List.mem_of_find?_eq_some h
  have hpred := List.find?_some h
  rw [List.mem_reverse] at hmem
  obtain ⟨hmem', hcond⟩ := List.mem_filter.mp hmem
  refine ⟨hmem', ?_, by simpa using hpred⟩
  simpa using hcond

lemma heCandidatesLookup_isSome {hebrew : List HeEntry} {t : String}
    (h : t ∈ heDefinitionsList hebrew) :
    ∃ he, heCandidatesLookup hebrew t = some he := by
  unfold heDefinitionsList at h
  obtain ⟨he0, hmem, heq⟩ := List.mem_map.mp h
  have hex : ∃ x ∈ (hebrew.filter (fun h => !h.definitions.isEmpty)).reverse,
      (heDefText x == t) = true :=
    ⟨he0, List.mem_reverse.mpr hmem, by simp [heq]⟩
  have hs := List.find?_isSome.mpr hex
  obtain ⟨he, hfind⟩ := Option.isSome_iff_exists.mp hs
  exact ⟨he, hfind⟩

lemma mem_fuzzyForEntry {hebrew : List HeEntry} {texts : List String}
    {es : EsEntry} {a : Alignment} (h : a ∈ fuzzyForEntry hebrew texts es) :
    es.definitions ≠ [] ∧ ∃ t s he,
      extractOne (esDefText es) texts 80 = some (t, s) ∧
      heCandidatesLookup hebrew t = some he ∧ a = mkFuzzy es he s := by
  unfold fuzzyForEntry at h
  split at h
  · simp at h
  · rename_i hne
    cases hext : extractOne (esDefText es) texts 80 with
    | none => rw [hext] at h; simp at h
    | some p =>
      obtain ⟨t, s⟩ := p
      rw [hext] at h
      have h' : a ∈ (match heCandidatesLookup hebrew t with
        | none => ([] : List Alignment)
        | some he => [mkFuzzy es he s]) := h
      cases hlk : heCandidatesLookup hebrew t with
      | none => rw [hlk] at h'; simp at h'
      | some he =>
        rw [hlk] at h'
        simp only [List.mem_singleton] at h'
        refine ⟨?_, t, s, he, rfl, hlk, h'⟩
        intro hnil
        rw [hnil] at hne
        simp at hne

lemma fuzzyForEntry_length (hebrew : List HeEntry) (texts : List String)
    (es : EsEntry) : (fuzzyForEntry hebrew texts es).length ≤ 1 := by
  unfold fuzzyForEntry
  split
  · simp
  · cases hext : extractOne (esDefText es) texts 80 with
    | none => simp
    | some p =>
      obtain ⟨t, s⟩ := p
      show (match heCandidatesLookup hebrew t with
        | none => ([] : List Alignment)
        | some he => [mkFuzzy es he s]).length ≤ 1
      cases hlk : heCandidatesLookup hebrew t with
      | none => simp
      | some he => simp

lemma mem_fuzzyPass {spanish : List EsEntry} {hebrew : List HeEntry}
    {aligned : List String} {a : Alignment} (h : a ∈ fuzzyPass spanish hebrew aligned) :
    ∃ es ∈ spanish, es.word ∉ aligned ∧
      a ∈ fuzzyForEntry hebrew (heDefinitionsList hebrew) es := by
  unfold fuzzyPass at h
  obtain ⟨es, hmem, hf⟩ := List.mem_flatMap.mp h
  obtain ⟨hmemsp, hcond⟩ := List.mem_filter.mp hmem
  refine ⟨es, hmemsp, ?_, hf⟩
  simpa using hcond

/-! ### Structure of the full align_languages output -/

lemma align_languages_eq (spanish : List EsEntry) (hebrew : List HeEntry)
    (bridge : Option (List BridgeEntry)) :
    align_languages spanish hebrew bridge =
      (directAlignments spanish hebrew ++ triPart spanish hebrew bridge) ++
        fuzzyPass spanish hebrew
          ((directAlignments spanish hebrew ++ triPart spanish hebrew bridge).map
            (fun a => a.es_word)) := rfl

lemma mem_align_cases {spanish : List EsEntry} {hebrew : List HeEntry}
    {bridge : Option (List BridgeEntry)} {a : Alignment}
    (h : a ∈ align_languages spanish hebrew bridge) :
    a ∈ directAlignments spanish hebrew ∨ a ∈ triPart spanish hebrew bridge ∨
      a ∈ fuzzyPass spanish hebrew
        ((directAlignments spanish hebrew ++ triPart spanish hebrew bridge).map
          (fun a => a.es_word)) := by
  rw [align_languages_eq] at h
  rcases List.mem_append.mp h with h | h
  · rcases List.mem_append.mp h with h | h
    · exact Or.inl h
    · exact Or.inr (Or.inl h)
  · exact Or.inr (Or.inr h)

lemma mem_triPart {spanish : List EsEntry} {hebrew : List HeEntry}
    {bridge : Option (List BridgeEntry)} {a : Alignment}
    (h : a ∈ triPart spanish hebrew bridge) :
    ∃ es ∈ spanish,
      es.word ∉ (directAlignments spanish hebrew).map (fun x => x.es_word) ∧
      ∃ bs, bridge = some bs ∧
      ∃ b, (bs.filter (fun x => x.source_lang == "es")).find?
          (fun x => x.word == es.word) = some b ∧
      ∃ hw he, triCandidate hebrew b = some (hw, he) ∧ a = mkTri es hw he := by
  cases bridge with
  | none => simp [triPart] at h
  | some bs =>
    have h' : a ∈ (if bs.isEmpty then ([] : List Alignment)
        else triPass hebrew (bs.filter (fun b => b.source_lang == "es")) spanish
          ((directAlignments spanish hebrew).map (fun a => a.es_word))) := h
    split at h'
    · simp at h'
    · obtain ⟨es, hmem, hnal, b, hfind, hw, he, hcand, rfl⟩ :=
        mem_triPass hebrew _ spanish _ a h'
      exact ⟨es, hmem, hnal, bs, rfl, b, hfind, hw, he, hcand, rfl⟩

lemma triPart_match_type {spanish : List EsEntry} {hebrew : List HeEntry}
    {bridge : Option (List BridgeEntry)} {a : Alignment}
    (h : a ∈ triPart spanish hebrew bridge) :
    a.match_type = MatchType.triangulation := by
  obtain ⟨es, _, _, bs, _, b, _, hw, he, _, rfl⟩ := mem_triPart h
  rfl

lemma fuzzyPass_match_type {spanish : List EsEntry} {hebrew : List HeEntry}
    {aligned : List String} {a : Alignment} (h : a ∈ fuzzyPass spanish hebrew aligned) :
    ∃ s, a.match_type = MatchType.fuzzy s := by
  obtain ⟨es, _, _, hf⟩ := mem_fuzzyPass h
  obtain ⟨_, t, s, he, _, _, rfl⟩ := mem_fuzzyForEntry hf
  exact ⟨s, rfl⟩

lemma fuzzyPass_es_word_not_aligned {spanish : List EsEntry} {hebrew : List HeEntry}
    {aligned : List String} {a : Alignment} (h : a ∈ fuzzyPass spanish hebrew aligned) :
    a.es_word ∉ aligned := by
  obtain ⟨es, _, hnal, hf⟩ := mem_fuzzyPass h
  obtain ⟨_, t, s, he, _, _, rfl⟩ := mem_fuzzyForEntry hf
  exact hnal

/-! ### Classification and counting lemmas -/

lemma directAlignments_match_type {spanish : List EsEntry} {hebrew : List HeEntry}
    {a : Alignment} (h : a ∈ directAlignments spanish hebrew) :
    a.match_type = MatchType.direct := by
  obtain ⟨es, _, hf⟩ := mem_directAlignments.mp h
  exact directForEntry_match_type hf

lemma directAlignments_es_word {spanish : List EsEntry} {hebrew : List HeEntry}
    {a : Alignment} (h : a ∈ directAlignments spanish hebrew) :
    ∃ es ∈ spanish, a.es_word = es.word := by
  obtain ⟨es, hm, hf⟩ := mem_directAlignments.mp h
  exact ⟨es, hm, directForEntry_es_word hf⟩

lemma fuzzyForEntry_es_word {hebrew : List HeEntry} {texts : List String}
    {es : EsEntry} {a : Alignment} (h : a ∈ fuzzyForEntry hebrew texts es) :
    a.es_word = es.word := by
  obtain ⟨_, t, s, he, _, _, rfl⟩ := mem_fuzzyForEntry h
  rfl

/-- Counting alignments for a fixed Spanish word across a per-entry emitter:
when the Spanish headwords are pairwise distinct and each entry emits at
most one row counted by `p`, the whole pass emits at most one. -/
lemma countP_flatMap_word (w : String) (p : Alignment → Bool)
    (hpw : ∀ a, p a = true → a.es_word = w)
    (f : EsEntry → List Alignment)
    (hfw : ∀ es a, a ∈ f es → a.es_word = es.word)
    (hf1 : ∀ es, (f es).countP p ≤ 1) :
    ∀ (L : List EsEntry), (L.map (fun es => es.word)).Nodup →
      (L.flatMap f).countP p ≤ 1 := by
  intro L
  induction L with
  | nil => intro _; simp
  | cons es rest ih =>
    intro hnd
    rw [List.flatMap_cons, List.countP_append]
    rw [List.map_cons, List.nodup_cons] at hnd
    obtain ⟨hnotin, hnd'⟩ := hnd
    by_cases hew : es.word = w
    · have hrest : (rest.flatMap f).countP p = 0 := by
        rw [List.countP_eq_zero]
        intro a ha hpa
        obtain ⟨es', hm', ha'⟩ := List.mem_flatMap.mp ha
        have h1 : a.es_word = es'.word := hfw es' a ha'
        have h2 : a.es_word = w := hpw a hpa
        apply hnotin
        have : es.word = es'.word := by rw [hew, ← h2, h1]
        rw [this]
        exact List.mem_map_of_mem _ hm'
      have := hf1 es
      omega
    · have hhead : (f es).countP p = 0 := by
        rw [List.countP_eq_zero]
        intro a ha hpa
        exact hew ((hfw es a ha) ▸ hpw a hpa)
      rw [hhead]
      simpa using ih hnd'

lemma directEnumFrom_countP (hebrew : List HeEntry) (es : EsEntry) (n : Nat)
    (p : Alignment → Bool) (hp : ∀ a, p a = true → a.sense_id = n) :
    ∀ (ts : List String) (j : Nat),
      ((List.enumFrom j ts).filterMap
        (fun iw => (heLookup hebrew iw.2).map (mkDirect es iw.1 iw.2))).countP p ≤ 1 ∧
      (n ≤ j → ((List.enumFrom j ts).filterMap
        (fun iw => (heLookup hebrew iw.2).map (mkDirect es iw.1 iw.2))).countP p = 0) := by
  intro ts
  induction ts with
  | nil => intro j; simp
  | cons t ts ih =>
    intro j
    rw [List.enumFrom_cons, List.filterMap_cons]
    cases hlk : heLookup hebrew t with
    | none =>
      simp only [hlk, Option.map_none']
      exact ⟨(ih (j + 1)).1, fun hnj => (ih (j + 1)).2 (by omega)⟩
    | some he =>
      simp only [hlk, Option.map_some']
      rw [List.countP_cons]
      constructor
      · by_cases hpn : p (mkDirect es j t he) = true
        · have hsn : (mkDirect es j t he).sense_id = n := hp _ hpn
          have hjn : j + 1 = n := by simpa [mkDirect] using hsn
          have h0 := (ih (j + 1)).2 (by omega)
          rw [h0, hpn]
          simp
        · have h1 := (ih (j + 1)).1
          simp only [hpn]
          simpa using h1
      · intro hnj
        have hhead : ¬ p (mkDirect es j t he) = true := by
          intro hpn
          have hsn : (mkDirect es j t he).sense_id = n := hp _ hpn
          have : j + 1 = n := by simpa [mkDirect] using hsn
          omega
        have h0 := (ih (j + 1)).2 (by omega)
        rw [h0]
        simp [hhead]

lemma directForEntry_countP (hebrew : List HeEntry) (es : EsEntry) (n : Nat)
    (p : Alignment → Bool) (hp : ∀ a, p a = true → a.sense_id = n) :
    (directForEntry hebrew es).countP p ≤ 1 :=
  (directEnumFrom_countP hebrew es n p hp es.translations_he 0).1

lemma nodup_filter_word (spanish : List EsEntry) (q : EsEntry → Bool)
    (hnd : (spanish.map (fun es => es.word)).Nodup) :
    ((spanish.filter q).map (fun es => es.word)).Nodup :=
  ((List.filter_sublist spanish).map (fun es => es.word)).nodup hnd

lemma fuzzyPass_countP_le_one (spanish : List EsEntry) (hebrew : List HeEntry)
    (aligned : List String) (w : String) (p : Alignment → Bool)
    (hpw : ∀ a, p a = true → a.es_word = w)
    (hnd : (spanish.map (fun es => es.word)).Nodup) :
    (fuzzyPass spanish hebrew aligned).countP p ≤ 1 := by
  unfold fuzzyPass
  exact countP_flatMap_word w p hpw _
    (fun es a ha => fuzzyForEntry_es_word ha)
    (fun es => le_trans (List.countP_le_length p) (fuzzyForEntry_length hebrew _ es))
    _ (nodup_filter_word spanish _ hnd)

lemma directAlignments_countP_le_one (spanish : List EsEntry) (hebrew : List HeEntry)
    (w : String) (n : Nat) (p : Alignment → Bool)
    (hpw : ∀ a, p a = true → a.es_word = w)
    (hpn : ∀ a, p a = true → a.sense_id = n)
    (hnd : (spanish.map (fun es => es.word)).Nodup) :
    (directAlignments spanish hebrew).countP p ≤ 1 := by
  unfold directAlignments
  exact countP_flatMap_word w p hpw _
    (fun es a ha => directForEntry_es_word ha)
    (fun es => directForEntry_countP hebrew es n p hpn)
    _ hnd

lemma countP_zero_of_word {l : List Alignment} {w : String} (p : Alignment → Bool)
    (hpw : ∀ a, p a = true → a.es_word = w)
    (hnot : ∀ a ∈ l, a.es_word ≠ w) : l.countP p = 0 :=
  List.countP_eq_zero.mpr (fun a ha hpa => hnot a ha (hpw a hpa))

lemma triPart_countP_le_one (spanish : List EsEntry) (hebrew : List HeEntry)
    (bridge : Option (List BridgeEntry)) (w : String) (p : Alignment → Bool)
    (hpw : ∀ a, p a = true → a.es_word = w) :
    (triPart spanish hebrew bridge).countP p ≤ 1 := by
  have hmono : (triPart spanish hebrew bridge).countP p ≤
      (triPart spanish hebrew bridge).countP (fun a => a.es_word == w) :=
    List.countP_mono_left (fun a _ hpa => by simp [hpw a hpa])
  refine le_trans hmono ?_
  cases bridge with
  | none => simp [triPart]
  | some bs =>
    show (if bs.isEmpty then ([] : List Alignment)
        else triPass hebrew (bs.filter (fun b => b.source_lang == "es")) spanish
          ((directAlignments spanish hebrew).map (fun a => a.es_word))).countP
        (fun a => a.es_word == w) ≤ 1
    split
    · simp
    · exact triPass_countP_le_one hebrew _ w spanish _

lemma triPart_countP_zero (spanish : List EsEntry) (hebrew : List HeEntry)
    (bridge : Option (List BridgeEntry)) (w : String) (p : Alignment → Bool)
    (hpw : ∀ a, p a = true → a.es_word = w)
    (hdir : w ∈ (directAlignments spanish hebrew).map (fun a => a.es_word)) :
    (triPart spanish hebrew bridge).countP p = 0 := by
  apply countP_zero_of_word p hpw
  intro a ha heq
  obtain ⟨es, _, hnal, _, _, _, _, _, _, _, rfl⟩ := mem_triPart ha
  apply hnal
  have hesw : es.word = w := heq
  rw [hesw]
  exact hdir

lemma directAlignments_confidence {spanish : List EsEntry} {hebrew : List HeEntry}
    {a : Alignment} (hd : a ∈ directAlignments spanish hebrew) : a.confidence = none := by
  obtain ⟨es, _, hf⟩ := mem_directAlignments.mp hd
  obtain ⟨i, hw, he, _, _, rfl⟩ := mem_directForEntry.mp hf
  rfl

lemma triPart_confidence {spanish : List EsEntry} {hebrew : List HeEntry}
    {bridge : Option (List BridgeEntry)} {a : Alignment}
    (ht : a ∈ triPart spanish hebrew bridge) : a.confidence = none := by
  obtain ⟨es, _, _, _, _, _, _, _, _, _, rfl⟩ := mem_triPart ht
  rfl

/-! ### Claim theorems -/

/-- C2: the direct strategy emits, for every Spanish entry and every 0-based
index `i` of its Hebrew-translations list whose word is an exact headword of
the Hebrew collection, one alignment with `sense_id = i+1`, `match_type`
"direct", the Spanish definition at index `i` (the first definition when `i`
is out of range, empty when there is none), and the matched Hebrew entry's
first definition; conversely every direct alignment in the output arises
this way. -/
theorem C2_direct_strategy (spanish : List EsEntry) (hebrew : List HeEntry)
    (bridge : Option (List BridgeEntry)) :
    (∀ es ∈ spanish, ∀ (i : Nat) (hw : String) (he : HeEntry),
      es.translations_he.get? i = some hw →
      heLookup hebrew hw = some he →
      mkDirect es i hw he ∈ align_languages spanish hebrew bridge ∧
      (mkDirect es i hw he).sense_id = i + 1 ∧
      (mkDirect es i hw he).match_type = MatchType.direct ∧
      (mkDirect es i hw he).es_definition =
        (if i < es.definitions.length then es.definitions.getD i ""
          else es.definitions.headD "") ∧
      (mkDirect es i hw he).he_definition = he.definitions.headD "") ∧
    (∀ a ∈ align_languages spanish hebrew bridge, a.match_type = MatchType.direct →
      ∃ es ∈ spanish, ∃ i hw he, es.translations_he.get? i = some hw ∧
        heLookup hebrew hw = some he ∧ a = mkDirect es i hw he) := by
  constructor
  · intro es hmem i hw he hget hlk
    refine ⟨?_, rfl, rfl, rfl, rfl⟩
    rw [align_languages_eq]
    exact List.mem_append_left _ (List.mem_append_left _
      (mem_directAlignments.mpr ⟨es, hmem,
        mem_directForEntry.mpr ⟨i, hw, he, hget, hlk, rfl⟩⟩))
  · intro a ha htype
    rcases mem_align_cases ha with hd | ht | hf
    · obtain ⟨es, hmem, hfe⟩ := mem_directAlignments.mp hd
      obtain ⟨i, hw, he, h1, h2, rfl⟩ := mem_directForEntry.mp hfe
      exact ⟨es, hmem, i, hw, he, h1, h2, rfl⟩
    · rw [triPart_match_type ht] at htype
      exact absurd htype (by simp)
    · obtain ⟨s, hs⟩ := fuzzyPass_match_type hf
      rw [hs] at htype
      exact absurd htype (by simp)

/-- C3: for every Spanish word, at most one triangulation alignment is
emitted; every triangulation alignment has `sense_id = 1`, belongs to a
Spanish entry with no Strategy-1 alignment whose word is an exact
`source_lang = "es"` headword of the bridge collection, and is built from
the first word of that bridge entry's Hebrew-translations list that is an
exact headword of the Hebrew collection (all earlier candidates having no
exact Hebrew headword match). -/
theorem C3_triangulation_strategy (spanish : List EsEntry) (hebrew : List HeEntry)
    (bridge : Option (List BridgeEntry)) :
    (∀ w : String, (align_languages spanish hebrew bridge).countP
        (fun a => a.es_word == w && a.match_type == MatchType.triangulation) ≤ 1) ∧
    (∀ a ∈ align_languages spanish hebrew bridge,
      a.match_type = MatchType.triangulation →
      a.sense_id = 1 ∧
      ∃ es ∈ spanish, a.es_word = es.word ∧
        (∀ d ∈ directAlignments spanish hebrew, d.es_word ≠ es.word) ∧
        ∃ bs, bridge = some bs ∧
        ∃ b, (bs.filter (fun x => x.source_lang == "es")).find?
            (fun x => x.word == es.word) = some b ∧
        ∃ k hw, b.translations_he.get? k = some hw ∧
          (∀ k' hw', k' < k → b.translations_he.get? k' = some hw' →
            heLookup hebrew hw' = none) ∧
        ∃ he, heLookup hebrew hw = some he ∧ a = mkTri es hw he) := by
  constructor
  · intro w
    rw [align_languages_eq, List.countP_append, List.countP_append]
    have hd0 : (directAlignments spanish hebrew).countP
        (fun a => a.es_word == w && a.match_type == MatchType.triangulation) = 0 := by
      rw [List.countP_eq_zero]
      intro a ha hpa
      rw [directAlignments_match_type ha] at hpa
      simp at hpa
    have hf0 : (fuzzyPass spanish hebrew
        ((directAlignments spanish hebrew ++ triPart spanish hebrew bridge).map
          (fun a => a.es_word))).countP
        (fun a => a.es_word == w && a.match_type == MatchType.triangulation) = 0 := by
      rw [List.countP_eq_zero]
      intro a ha hpa
      obtain ⟨s, hs⟩ := fuzzyPass_match_type ha
      rw [hs] at hpa
      simp at hpa
    have ht1 := triPart_countP_le_one spanish hebrew bridge w
      (fun a => a.es_word == w && a.match_type == MatchType.triangulation)
      (fun a hpa => by
        simp only [Bool.and_eq_true, beq_iff_eq] at hpa
        exact hpa.1)
    omega
  · intro a ha htype
    rcases mem_align_cases ha with hd | ht | hf
    · rw [directAlignments_match_type hd] at htype
      exact absurd htype (by simp)
    · obtain ⟨es, hmem, hnal, bs, hbs, b, hfind, hw, he, hcand, rfl⟩ := mem_triPart ht
      refine ⟨rfl, es, hmem, rfl, ?_, bs, hbs, b, hfind, ?_⟩
      · intro d hdmem heq
        exact hnal (heq ▸ List.mem_map_of_mem _ hdmem)
      · obtain ⟨k, x, hget, hfx, hfirst⟩ :=
          findSome?_eq_some_first _ b.translations_he (hw, he) hcand
        rw [Option.map_eq_some'] at hfx
        obtain ⟨he0, hlk0, hpair⟩ := hfx
        obtain ⟨rfl, rfl⟩ := Prod.mk.injEq .. ▸ hpair
        refine ⟨k, x, hget, ?_, he0, hlk0, rfl⟩
        intro k' hw' hk' hget'
        have := hfirst k' hw' hk' hget'
        rwa [Option.map_eq_none'] at this
    · obtain ⟨s, hs⟩ := fuzzyPass_match_type hf
      rw [hs] at htype
      exact absurd htype (by simp)

/-- C4 (amended): every fuzzy alignment carries in its `match_type` the
winning similarity score `s`, a rational (not necessarily an integer) with
`80 ≤ s ≤ 100`, and has `confidence = s / 100 ∈ [0.8, 1]`; direct and
triangulation alignments carry no confidence value. -/
theorem C4_fuzzy_scoring (spanish : List EsEntry) (hebrew : List HeEntry)
    (bridge : Option (List BridgeEntry)) :
    ∀ a ∈ align_languages spanish hebrew bridge,
      (∀ s, a.match_type = MatchType.fuzzy s →
        80 ≤ s ∧ s ≤ 100 ∧ a.confidence = some (s / 100) ∧
        (4/5 : ℚ) ≤ s / 100 ∧ s / 100 ≤ 1) ∧
      ((a.match_type = MatchType.direct ∨ a.match_type = MatchType.triangulation) →
        a.confidence = none) := by
  intro a ha
  rcases mem_align_cases ha with hd | ht | hf
  · constructor
    · intro s hs
      rw [directAlignments_match_type hd] at hs
      exact absurd hs (by simp)
    · intro _
      exact directAlignments_confidence hd
  · constructor
    · intro s hs
      rw [triPart_match_type ht] at hs
      exact absurd hs (by simp)
    · intro _
      exact triPart_confidence ht
  · obtain ⟨es, hmem, hnal, hfe⟩ := mem_fuzzyPass hf
    obtain ⟨hne, t, s0, he, hext, hlk, rfl⟩ := mem_fuzzyForEntry hfe
    obtain ⟨htmem, hsc, hcut⟩ := extractOne_some _ _ _ _ _ hext
    have h100 : s0 ≤ 100 := by
      rw [hsc]
      exact fuzzRatioScore_le_100 _ _
    constructor
    · intro s hs
      have hs0 : s = s0 := by
        have : MatchType.fuzzy s0 = MatchType.fuzzy s := hs
        exact (MatchType.fuzzy.injEq .. ▸ this).symm
      subst hs0
      refine ⟨hcut, h100, rfl, ?_, ?_⟩
      · rw [div_le_div_iff (by norm_num) (by norm_num)]
        linarith
      · rw [div_le_one (by norm_num)]
        exact h100
    · intro hdisj
      rcases hdisj with hx | hx <;> exact absurd hx (by simp [mkFuzzy])

/-- C8: on empty Spanish and Hebrew collections `align_languages` returns
the empty output; every alignment's Spanish word is the word of some input
entry (an unmatched word is simply absent), a fuzzy alignment only arises
from an entry with a non-empty definitions list (empty-definition entries
are skipped, not fatal), and the Strategy-3 candidate-dict lookup succeeds
for every string in the candidate list (the one lookup that could raise
never fails). -/
theorem C8_empty_and_no_raise :
    (∀ bridge, align_languages [] [] bridge = []) ∧
    (∀ (spanish : List EsEntry) (hebrew : List HeEntry)
        (bridge : Option (List BridgeEntry)),
      ∀ a ∈ align_languages spanish hebrew bridge,
        ∃ es ∈ spanish, a.es_word = es.word ∧
          (∀ s, a.match_type = MatchType.fuzzy s → es.definitions ≠ [])) ∧
    (∀ (hebrew : List HeEntry) (t : String), t ∈ heDefinitionsList hebrew →
      ∃ he, heCandidatesLookup hebrew t = some he) := by
  refine ⟨?_, ?_, ?_⟩
  · intro bridge
    rw [align_languages_eq]
    have h2 : triPart [] [] bridge = [] := by
      cases bridge with
      | none => rfl
      | some bs =>
        show (if bs.isEmpty then ([] : List Alignment)
            else triPass [] (bs.filter (fun b => b.source_lang == "es")) []
              ((directAlignments [] []).map (fun a => a.es_word))) = []
        split <;> rfl
    rw [h2]
    rfl
  · intro spanish hebrew bridge a ha
    rcases mem_align_cases ha with hd | ht | hf
    · obtain ⟨es, hmem, hword⟩ := directAlignments_es_word hd
      refine ⟨es, hmem, hword, ?_⟩
      intro s hs
      rw [directAlignments_match_type hd] at hs
      exact absurd hs (by simp)
    · obtain ⟨es, hmem, _, _, _, _, _, _, _, _, rfl⟩ := mem_triPart ht
      refine ⟨es, hmem, rfl, ?_⟩
      intro s hs
      exact absurd hs (by simp [mkTri])
    · obtain ⟨es, hmem, _, hfe⟩ := mem_fuzzyPass hf
      obtain ⟨hne, t, s0, he, _, _, rfl⟩ := mem_fuzzyForEntry hfe
      exact ⟨es, hmem, rfl, fun _ _ => hne⟩
  · intro hebrew t ht
    exact heCandidatesLookup_isSome ht

/-- C1 (amended): strategy priority is exclusive — a word with a direct or
triangulation alignment never also receives a fuzzy alignment, and a word
with a direct alignment never receives a triangulation alignment; moreover,
provided the Spanish headwords are pairwise distinct, a word with two or
more output rows has only direct rows (multiple senses from Strategy 1).
(Without the distinctness proviso, duplicate Spanish entries can each
receive a fuzzy alignment for the same word — see the counterexample.) -/
theorem C1_priority_exclusive (spanish : List EsEntry) (hebrew : List HeEntry)
    (bridge : Option (List BridgeEntry)) :
    (∀ a ∈ align_languages spanish hebrew bridge,
      ∀ b ∈ align_languages spanish hebrew bridge,
        (a.match_type = MatchType.direct ∨ a.match_type = MatchType.triangulation) →
        b.es_word = a.es_word → ∀ s, b.match_type ≠ MatchType.fuzzy s) ∧
    (∀ a ∈ align_languages spanish hebrew bridge, a.match_type = MatchType.direct →
      ∀ b ∈ align_languages spanish hebrew bridge, b.es_word = a.es_word →
        b.match_type ≠ MatchType.triangulation) ∧
    ((spanish.map (fun es => es.word)).Nodup →
      ∀ w, 2 ≤ (align_languages spanish hebrew bridge).countP
          (fun a => a.es_word == w) →
        ∀ a ∈ align_languages spanish hebrew bridge, a.es_word = w →
          a.match_type = MatchType.direct) := by
  refine ⟨?_, ?_, ?_⟩
  · intro a ha b hb hat hbw s hbs
    rcases mem_align_cases hb with hbd | hbt | hbf
    · rw [directAlignments_match_type hbd] at hbs
      exact absurd hbs (by simp)
    · rw [triPart_match_type hbt] at hbs
      exact absurd hbs (by simp)
    · have hnal := fuzzyPass_es_word_not_aligned hbf
      rcases mem_align_cases ha with had | hat' | haf
      · apply hnal
        rw [hbw]
        exact List.mem_map_of_mem _ (List.mem_append_left _ had)
      · apply hnal
        rw [hbw]
        exact List.mem_map_of_mem _ (List.mem_append_right _ hat')
      · obtain ⟨s', hs'⟩ := fuzzyPass_match_type haf
        rcases hat with h | h <;> (rw [hs'] at h; exact absurd h (by simp))
  · intro a ha hat b hb hbw hbt
    rcases mem_align_cases hb with hbd | hbt' | hbf
    · rw [directAlignments_match_type hbd] at hbt
      exact absurd hbt (by simp)
    · obtain ⟨es, _, hnal, _, _, _, _, _, _, _, rfl⟩ := mem_triPart hbt'
      rcases mem_align_cases ha with had | hat' | haf
      · apply hnal
        have hesw : es.word = a.es_word := hbw
        rw [hesw]
        exact List.mem_map_of_mem _ had
      · rw [triPart_match_type hat'] at hat
        exact absurd hat (by simp)
      · obtain ⟨s', hs'⟩ := fuzzyPass_match_type haf
        rw [hs'] at hat
        exact absurd hat (by simp)
    · obtain ⟨s, hs⟩ := fuzzyPass_match_type hbf
      rw [hs] at hbt
      exact absurd hbt (by simp)
  · intro hnd w hcount a ha haw
    rcases mem_align_cases ha with had | hat | haf
    · exact directAlignments_match_type had
    · exfalso
      rw [align_languages_eq, List.countP_append, List.countP_append] at hcount
      obtain ⟨es, _, hnal, _, _, _, _, _, _, _, rfl⟩ := mem_triPart hat
      have hesw : es.word = w := haw
      have hcd : (directAlignments spanish hebrew).countP
          (fun a => a.es_word == w) = 0 := by
        rw [List.countP_eq_zero]
        intro d hd hpd
        apply hnal
        have hd' : d.es_word = es.word := by
          rw [hesw]
          simpa [beq_iff_eq] using hpd
        rw [← hd']
        exact List.mem_map_of_mem _ hd
      have hcf : (fuzzyPass spanish hebrew
          ((directAlignments spanish hebrew ++ triPart spanish hebrew bridge).map
            (fun a => a.es_word))).countP (fun a => a.es_word == w) = 0 := by
        rw [List.countP_eq_zero]
        intro f hfm hpf
        have hnal2 := fuzzyPass_es_word_not_aligned hfm
        apply hnal2
        have hf' : f.es_word = w := by simpa [beq_iff_eq] using hpf
        rw [hf', ← hesw]
        exact List.mem_map_of_mem _ (List.mem_append_right _ hat)
      have hct := triPart_countP_le_one spanish hebrew bridge w
        (fun a => a.es_word == w) (fun a hpa => by simpa [beq_iff_eq] using hpa)
      omega
    · exfalso
      rw [align_languages_eq, List.countP_append, List.countP_append] at hcount
      have hnal := fuzzyPass_es_word_not_aligned haf
      rw [haw] at hnal
      have hcd : (directAlignments spanish hebrew).countP
          (fun a => a.es_word == w) = 0 := by
        rw [List.countP_eq_zero]
        intro d hd hpd
        apply hnal
        have hd' : d.es_word = w := by simpa [beq_iff_eq] using hpd
        rw [← hd']
        exact List.mem_map_of_mem _ (List.mem_append_left _ hd)
      have hct : (triPart spanish hebrew bridge).countP
          (fun a => a.es_word == w) = 0 := by
        rw [List.countP_eq_zero]
        intro r hr hpr
        apply hnal
        have hr' : r.es_word = w := by simpa [beq_iff_eq] using hpr
        rw [← hr']
        exact List.mem_map_of_mem _ (List.mem_append_right _ hr)
      have hcf := fuzzyPass_countP_le_one spanish hebrew
        ((directAlignments spanish hebrew ++ triPart spanish hebrew bridge).map
          (fun a => a.es_word)) w (fun a => a.es_word == w)
        (fun a hpa => by simpa [beq_iff_eq] using hpa) hnd
      omega

/-- C7 (amended): when the Spanish headwords are pairwise distinct, at most
one alignment row exists for every `(es_word, he_word, sense_id)` triple.
(With duplicate Spanish headword rows the code emits duplicate triples —
see the counterexample.) -/
theorem C7_no_duplicate_triples (spanish : List EsEntry) (hebrew : List HeEntry)
    (bridge : Option (List BridgeEntry))
    (hnd : (spanish.map (fun es => es.word)).Nodup) :
    ∀ (w hw : String) (n : Nat),
      (align_languages spanish hebrew bridge).countP
        (fun a => a.es_word == w && a.he_word == hw && a.sense_id == n) ≤ 1 := by
  intro w hw n
  have hpw : ∀ a : Alignment,
      (a.es_word == w && a.he_word == hw && a.sense_id == n) = true →
      a.es_word = w := by
    intro a hpa
    simp only [Bool.and_eq_true, beq_iff_eq] at hpa
    exact hpa.1.1
  have hpn : ∀ a : Alignment,
      (a.es_word == w && a.he_word == hw && a.sense_id == n) = true →
      a.sense_id = n := by
    intro a hpa
    simp only [Bool.and_eq_true, beq_iff_eq] at hpa
    exact hpa.2
  rw [align_languages_eq, List.countP_append, List.countP_append]
  have hcd := directAlignments_countP_le_one spanish hebrew w n _ hpw hpn hnd
  have hct := triPart_countP_le_one spanish hebrew bridge w _ hpw
  have hcf := fuzzyPass_countP_le_one spanish hebrew
    ((directAlignments spanish hebrew ++ triPart spanish hebrew bridge).map
      (fun a => a.es_word)) w _ hpw hnd
  by_cases hdpos : 0 < (directAlignments spanish hebrew).countP
      (fun a => a.es_word == w && a.he_word == hw && a.sense_id == n)
  · obtain ⟨d, hd, hpd⟩ := List.countP_pos.mp hdpos
    have hwmem : w ∈ (directAlignments spanish hebrew).map (fun a => a.es_word) := by
      rw [← hpw d hpd]
      exact List.mem_map_of_mem _ hd
    have hct0 := triPart_countP_zero spanish hebrew bridge w _ hpw hwmem
    have hcf0 : (fuzzyPass spanish hebrew
        ((directAlignments spanish hebrew ++ triPart spanish hebrew bridge).map
          (fun a => a.es_word))).countP
        (fun a => a.es_word == w && a.he_word == hw && a.sense_id == n) = 0 := by
      apply countP_zero_of_word _ hpw
      intro f hfm heq
      apply fuzzyPass_es_word_not_aligned hfm
      rw [heq]
      rcases List.mem_map.mp hwmem with ⟨d0, hd0, hd0w⟩
      rw [← hd0w]
      exact List.mem_map_of_mem _ (List.mem_append_left _ hd0)
    omega
  · by_cases htpos : 0 < (triPart spanish hebrew bridge).countP
        (fun a => a.es_word == w && a.he_word == hw && a.sense_id == n)
    · obtain ⟨r, hr, hpr⟩ := List.countP_pos.mp htpos
      have hcf0 : (fuzzyPass spanish hebrew
          ((directAlignments spanish hebrew ++ triPart spanish hebrew bridge).map
            (fun a => a.es_word))).countP
          (fun a => a.es_word == w && a.he_word == hw && a.sense_id == n) = 0 := by
        apply countP_zero_of_word _ hpw
        intro f hfm heq
        apply fuzzyPass_es_word_not_aligned hfm
        rw [heq, ← hpw r hpr]
        exact List.mem_map_of_mem _ (List.mem_append_right _ hr)
      omega
    · omega

/-- C6: `enrich_entries` keeps every alignment row (in order, fields
unchanged) and attaches as `examples` exactly the corpus pairs whose
Spanish token list contains `es_word` and whose Hebrew token list contains
`he_word` (exact token membership), projected to their sentence texts, in
corpus order (the selected rows form a sublist of the corpus), as a list
(never a null value). -/
theorem C6_enrichment (aligned : List Alignment) (examples : List ExampleRow) :
    (enrich_entries aligned examples).length = aligned.length ∧
    (∀ (k : Nat) (a : Alignment), aligned.get? k = some a →
      (enrich_entries aligned examples).get? k =
        some { alignment := a, examples := matchingExamples examples a } ∧
      (∀ p, p ∈ matchingExamples examples a ↔
        ∃ ex ∈ examples, a.es_word ∈ ex.es_words ∧ a.he_word ∈ ex.he_words ∧
          p = (ex.es, ex.he)) ∧
      (examples.filter (fun ex => decide (a.es_word ∈ ex.es_words) &&
        decide (a.he_word ∈ ex.he_words))).Sublist examples) := by
  constructor
  · exact List.length_map _ _
  · intro k a hget
    refine ⟨?_, ?_, List.filter_sublist examples⟩
    · unfold enrich_entries
      rw [List.get?_eq_getElem?] at hget ⊢
      rw [List.getElem?_map, hget]
      rfl
    · intro p
      unfold matchingExamples
      rw [List.mem_map]
      constructor
      · rintro ⟨ex, hmem, rfl⟩
        obtain ⟨hex, hcond⟩ := List.mem_filter.mp hmem
        simp only [Bool.and_eq_true, decide_eq_true_eq] at hcond
        exact ⟨ex, hex, hcond.1, hcond.2, rfl⟩
      · rintro ⟨ex, hex, h1, h2, rfl⟩
        refine ⟨ex, List.mem_filter.mpr ⟨hex, ?_⟩, rfl⟩
        simp only [Bool.and_eq_true, decide_eq_true_eq]
        exact ⟨h1, h2⟩

/-- The Strategy-3 candidate dict maps a concatenated-definitions string to
the **last** Hebrew row (with non-empty definitions) carrying it. -/
lemma heCandidatesLookup_last (u v : List HeEntry) (e2 : HeEntry) (t : String)
    (h2 : heDefText e2 = t) (hne2 : e2.definitions ≠ [])
    (hafter : ∀ x ∈ v, x.definitions ≠ [] → heDefText x ≠ t) :
    heCandidatesLookup (u ++ e2 :: v) t = some e2 := by
  unfold heCandidatesLookup
  rw [List.filter_append, List.filter_cons]
  have hpe2 : (!e2.definitions.isEmpty) = true := by
    cases hd : e2.definitions with
    | nil => exact absurd hd hne2
    | cons x xs => simp [hd]
  rw [if_pos hpe2, List.reverse_append, List.reverse_cons, List.find?_append,
    List.find?_append]
  have hv : ((v.filter (fun h => !h.definitions.isEmpty)).reverse.find?
      (fun h => heDefText h == t)) = none := by
    rw [List.find?_eq_none]
    intro x hx
    rw [List.mem_reverse] at hx
    obtain ⟨hxv, hxp⟩ := List.mem_filter.mp hx
    have hxne : x.definitions ≠ [] := by simpa using hxp
    simp [hafter x hxv hxne]
  rw [hv]
  have he2 : List.find? (fun h => heDefText h == t) [e2] = some e2 := by
    simp [List.find?_cons, h2]
  rw [he2]
  rfl

/-- C10: with two Hebrew rows sharing the identical concatenated-definitions
string `t` (and no later row with that string), the candidate dict keeps
only the later row `e2`, and every fuzzy alignment whose best-matching
string is `t` reports `e2`'s word, IPA and first definition — never the
earlier row's. -/
theorem C10_index_collision (u v w : List HeEntry) (e1 e2 : HeEntry) (t : String)
    (h1 : heDefText e1 = t) (h2 : heDefText e2 = t)
    (hne1 : e1.definitions ≠ []) (hne2 : e2.definitions ≠ [])
    (hafter : ∀ x ∈ w, x.definitions ≠ [] → heDefText x ≠ t) :
    heCandidatesLookup (u ++ e1 :: v ++ e2 :: w) t = some e2 ∧
    (∀ (es : EsEntry) (s : ℚ), es.definitions ≠ [] →
      extractOne (esDefText es) (heDefinitionsList (u ++ e1 :: v ++ e2 :: w)) 80 =
        some (t, s) →
      fuzzyForEntry (u ++ e1 :: v ++ e2 :: w)
          (heDefinitionsList (u ++ e1 :: v ++ e2 :: w)) es = [mkFuzzy es e2 s] ∧
      (mkFuzzy es e2 s).he_word = e2.word ∧
      (mkFuzzy es e2 s).he_ipa = e2.ipa ∧
      (mkFuzzy es e2 s).he_definition = e2.definitions.headD "") := by
  have hsplit : u ++ e1 :: v ++ e2 :: w = (u ++ e1 :: v) ++ e2 :: w := by simp
  have hlast : heCandidatesLookup (u ++ e1 :: v ++ e2 :: w) t = some e2 := by
    rw [hsplit]
    exact heCandidatesLookup_last (u ++ e1 :: v) w e2 t h2 hne2 hafter
  refine ⟨hlast, ?_⟩
  intro es s hnes hext
  refine ⟨?_, rfl, rfl, rfl⟩
  have hcond : ¬ (es.definitions.isEmpty = true) := by
    cases hd : es.definitions with
    | nil => exact absurd hd hnes
    | cons x xs => simp [hd]
  unfold fuzzyForEntry
  rw [if_neg hcond, hext]
  show (match heCandidatesLookup (u ++ e1 :: v ++ e2 :: w) t with
    | none => ([] : List Alignment)
    | some he => [mkFuzzy es he s]) = [mkFuzzy es e2 s]
  rw [hlast]

/-! ### Equivalence of the clustering loop with its specification -/

lemma mem_range_drop {n m j : Nat} :
    j ∈ (List.range n).drop m ↔ m ≤ j ∧ j < n := by
  rw [List.mem_iff_getElem?]
  constructor
  · rintro ⟨i, hi⟩
    rw [List.getElem?_drop] at hi
    by_cases hlt : m + i < n
    · rw [List.getElem?_range hlt] at hi
      obtain rfl := (Option.some.injEq _ _ ▸ hi)
      omega
    · rw [List.getElem?_eq_none (by simpa using hlt)] at hi
      exact absurd hi (by simp)
  · rintro ⟨h1, h2⟩
    refine ⟨j - m, ?_⟩
    rw [List.getElem?_drop]
    have : m + (j - m) = j := by omega
    rw [this]
    exact List.getElem?_range h2

lemma range_drop_cons {m n : Nat} (h : m < n) :
    (List.range n).drop m = m :: (List.range n).drop (m + 1) := by
  rw [List.drop_eq_getElem_cons (by simpa using h)]
  congr 1
  exact List.getElem_range m (by simpa using h)

lemma greedyLoop_not_used (defs : List String) :
    ∀ (l used c : List Nat) (j : Nat),
      c ∈ greedyLoop defs l used → j ∈ c → j ∉ used := by
  intro l
  induction l with
  | nil => intro used c j hc _; simp [greedyLoop] at hc
  | cons i rest ih =>
    intro used c j hc hj
    simp only [greedyLoop] at hc
    split at hc
    · exact ih used c j hc hj
    · rename_i hnot
      rcases List.mem_cons.mp hc with rfl | hc
      · rcases List.mem_cons.mp hj with rfl | hj
        · exact hnot
        · obtain ⟨_, hpred⟩ := List.mem_filter.mp hj
          simp only [Bool.and_eq_true, Bool.not_eq_true', decide_eq_false_iff_not] at hpred
          exact hpred.1
      · intro hju
        exact (ih _ c j hc hj) (List.mem_append_left _ hju)

lemma greedy_spec_aux (defs : List String) (n : Nat) :
    ∀ (fuel m : Nat), m + fuel = n →
      ∀ (used : List Nat) (assign : Nat → Option Nat) (next : Nat),
        (∀ j, (assign j).isSome ↔ j ∈ used) →
        ∀ j,
          ((((List.range n).drop m).foldl (specStep defs n) (assign, next)).1) j =
            (match (greedyLoop defs ((List.range n).drop m) used).findIdx?
                (fun c => decide (j ∈ c)) with
              | some k => some (next + k)
              | none => assign j) := by
  intro fuel
  induction fuel with
  | zero =>
    intro m hm used assign next _ j
    have hd : (List.range n).drop m = [] := by
      apply List.drop_eq_nil_of_le
      rw [List.length_range]
      omega
    rw [hd]
    simp [greedyLoop]
  | succ fuel ih =>
    intro m hm used assign next hiff j
    have hmn : m < n := by omega
    rw [range_drop_cons hmn, List.foldl_cons]
    by_cases hmu : m ∈ used
    · have hsome : (assign m).isSome := (hiff m).mpr hmu
      have hstep : specStep defs n (assign, next) m = (assign, next) := by
        unfold specStep
        simp [hsome]
      rw [hstep]
      have hgl : greedyLoop defs (m :: (List.range n).drop (m + 1)) used =
          greedyLoop defs ((List.range n).drop (m + 1)) used := by
        simp only [greedyLoop, if_pos hmu]
      rw [hgl]
      exact ih (m + 1) (by omega) used assign next hiff j
    · have hnone : ¬ ((assign m).isSome = true) := fun hs => hmu ((hiff m).mp hs)
      have hstep : specStep defs n (assign, next) m =
          (fun j =>
            if j = m then some next
            else if m < j ∧ j < n ∧ assign j = none ∧
                70 < fuzzRatioScore (defs.getD m "") (defs.getD j "") then some next
            else assign j,
           next + 1) := by
        unfold specStep
        simp [hnone]
      rw [hstep]
      have hgl : greedyLoop defs (m :: (List.range n).drop (m + 1)) used =
          (m :: ((List.range n).drop (m + 1)).filter
              (fun j => !decide (j ∈ used) &&
                decide (70 < fuzzRatioScore (defs.getD m "") (defs.getD j "")))) ::
            greedyLoop defs ((List.range n).drop (m + 1))
              (used ++ m :: ((List.range n).drop (m + 1)).filter
                (fun j => !decide (j ∈ used) &&
                  decide (70 < fuzzRatioScore (defs.getD m "") (defs.getD j "")))) := by
        simp only [greedyLoop, if_neg hmu]
      rw [hgl]
      -- abbreviations (proof-local):
      -- mates, used', assign'
      have hmate_iff : ∀ j, j ∈ ((List.range n).drop (m + 1)).filter
          (fun j => !decide (j ∈ used) &&
            decide (70 < fuzzRatioScore (defs.getD m "") (defs.getD j ""))) ↔
          (m < j ∧ j < n ∧ j ∉ used ∧
            70 < fuzzRatioScore (defs.getD m "") (defs.getD j "")) := by
        intro j'
        rw [List.mem_filter, mem_range_drop]
        simp only [Bool.and_eq_true, Bool.not_eq_true', decide_eq_false_iff_not,
          decide_eq_true_eq]
        constructor
        · rintro ⟨⟨ha, hb⟩, hc, hd⟩
          exact ⟨by omega, hb, hc, hd⟩
        · rintro ⟨ha, hb, hc, hd⟩
          exact ⟨⟨by omega, hb⟩, hc, hd⟩
      have hiff' : ∀ j, ((fun j =>
          if j = m then some next
          else if m < j ∧ j < n ∧ assign j = none ∧
              70 < fuzzRatioScore (defs.getD m "") (defs.getD j "") then some next
          else assign j) j).isSome ↔
          j ∈ used ++ m :: ((List.range n).drop (m + 1)).filter
            (fun j => !decide (j ∈ used) &&
              decide (70 < fuzzRatioScore (defs.getD m "") (defs.getD j ""))) := by
        intro j'
        simp only [List.mem_append, List.mem_cons]
        by_cases hjm : j' = m
        · simp [hjm]
        · rw [if_neg hjm]
          by_cases hcond : m < j' ∧ j' < n ∧ assign j' = none ∧
              70 < fuzzRatioScore (defs.getD m "") (defs.getD j' "")
          · rw [if_pos hcond]
            simp only [Option.isSome_some, true_iff]
            right; right
            rw [hmate_iff]
            refine ⟨hcond.1, hcond.2.1, ?_, hcond.2.2.2⟩
            intro hju
            have := (hiff j').mpr hju
            rw [hcond.2.2.1] at this
            simp at this
          · rw [if_neg hcond]
            rw [hiff j']
            constructor
            · intro hju
              exact Or.inl hju
            · rintro (hju | hjm' | hjmate)
              · exact hju
              · exact absurd hjm' hjm
              · rw [hmate_iff] at hjmate
                obtain ⟨h1, h2, h3, h4⟩ := hjmate
                exfalso
                apply hcond
                refine ⟨h1, h2, ?_, h4⟩
                cases hassign : assign j' with
                | none => rfl
                | some v =>
                  exact absurd ((hiff j').mp (by simp [hassign])) h3
      have hrec := ih (m + 1) (by omega)
        (used ++ m :: ((List.range n).drop (m + 1)).filter
          (fun j => !decide (j ∈ used) &&
            decide (70 < fuzzRatioScore (defs.getD m "") (defs.getD j ""))))
        (fun j =>
          if j = m then some next
          else if m < j ∧ j < n ∧ assign j = none ∧
              70 < fuzzRatioScore (defs.getD m "") (defs.getD j "") then some next
          else assign j)
        (next + 1) hiff' j
      rw [hrec]
      rw [List.findIdx?_cons]
      by_cases hjhead : j ∈ m :: ((List.range n).drop (m + 1)).filter
          (fun j => !decide (j ∈ used) &&
            decide (70 < fuzzRatioScore (defs.getD m "") (defs.getD j "")))
      · rw [if_pos (decide_eq_true hjhead)]
        have hnotcl : (greedyLoop defs ((List.range n).drop (m + 1))
            (used ++ m :: ((List.range n).drop (m + 1)).filter
              (fun j => !decide (j ∈ used) &&
                decide (70 < fuzzRatioScore (defs.getD m "") (defs.getD j ""))))).findIdx?
            (fun c => decide (j ∈ c)) = none := by
          rw [List.findIdx?_eq_none_iff]
          intro c hc
          simp only [decide_eq_false_iff_not]
          intro hjc
          exact (greedyLoop_not_used defs _ _ c j hc hjc)
            (List.mem_append_right _ hjhead)
        rw [hnotcl]
        rcases List.mem_cons.mp hjhead with rfl | hjmate
        · show (if j = j then some next
            else if j < j ∧ j < n ∧ assign j = none ∧
                70 < fuzzRatioScore (defs.getD j "") (defs.getD j "") then some next
            else assign j) = some (next + 0)
          simp
        · rw [hmate_iff] at hjmate
          obtain ⟨h1, h2, h3, h4⟩ := hjmate
          have hjm : ¬ (j = m) := by omega
          have hassign : assign j = none := by
            cases hassign : assign j with
            | none => rfl
            | some v => exact absurd ((hiff j).mp (by simp [hassign])) h3
          show (if j = m then some next
            else if m < j ∧ j < n ∧ assign j = none ∧
                70 < fuzzRatioScore (defs.getD m "") (defs.getD j "") then some next
            else assign j) = some (next + 0)
          rw [if_neg hjm, if_pos ⟨h1, h2, hassign, h4⟩]
          simp
      · rw [if_neg (fun h => hjhead (of_decide_eq_true h))]
        rw [List.findIdx?_succ]
        have hjm : ¬ (j = m) := by
          intro h
          exact hjhead (h ▸ List.mem_cons_self _ _)
        have hjcond : ¬ (m < j ∧ j < n ∧ assign j = none ∧
            70 < fuzzRatioScore (defs.getD m "") (defs.getD j "")) := by
          intro hcond
          apply hjhead
          apply List.mem_cons_of_mem
          rw [hmate_iff]
          refine ⟨hcond.1, hcond.2.1, ?_, hcond.2.2.2⟩
          intro hju
          have := (hiff j).mpr hju
          rw [hcond.2.2.1] at this
          simp at this
        cases hfi : (greedyLoop defs ((List.range n).drop (m + 1))
            (used ++ m :: ((List.range n).drop (m + 1)).filter
              (fun j => !decide (j ∈ used) &&
                decide (70 < fuzzRatioScore (defs.getD m "") (defs.getD j ""))))).findIdx?
            (fun c => decide (j ∈ c)) with
        | some k =>
          simp only [Option.map_some']
          show some (next + 1 + k) = some (next + (k + 1))
          exact congrArg some (by omega)
        | none =>
          simp only [Option.map_none']
          show (if j = m then some next
            else if m < j ∧ j < n ∧ assign j = none ∧
                70 < fuzzRatioScore (defs.getD m "") (defs.getD j "") then some next
            else assign j) = assign j
          rw [if_neg hjm, if_neg hjcond]

lemma clusterIdsGroup_eq_spec (defs : List String) :
    clusterIdsGroup defs = specClusterIds defs := by
  unfold clusterIdsGroup specClusterIds
  by_cases h10 : 10 < defs.length
  · rw [if_pos (Or.inr h10), if_pos h10]
  · rw [if_neg h10]
    by_cases h1 : defs.length ≤ 1
    · rw [if_pos (Or.inl h1)]
      match defs with
      | [] => rfl
      | [d] => rfl
      | d1 :: d2 :: rest => simp at h1
    · rw [if_neg (fun hor => by
        rcases hor with h | h
        · exact h1 h
        · exact h10 h)]
      apply List.map_congr_left
      intro idx _
      have h := greedy_spec_aux defs defs.length defs.length 0 (by omega) []
        (fun _ => none) 1 (by simp) idx
      rw [List.drop_zero] at h
      rw [h]
      unfold clustersOf
      cases hfi : (greedyLoop defs (List.range defs.length) []).findIdx?
          (fun c => decide (idx ∈ c)) with
      | some k =>
        show k + 1 = (some (1 + k)).getD 1
        simp [Nat.add_comm]
      | none =>
        show 1 = (none : Option Nat).getD 1
        rfl

/-- C5: `cluster_polysemic_senses` computes, for every row, the cluster id
of its position within its `es_word` group as the specification describes:
groups of more than 10 senses keep the default cluster 1, and otherwise the
ids come from the single-pass greedy clustering in which each
not-yet-assigned sense (in order) seeds a new cluster and absorbs every
later not-yet-assigned sense whose definition similarity to the seed
strictly exceeds 70, cluster ids being handed out 1..N in formation order
(`specClusterIds` / `specStep` transcribe the specification's wording). -/
theorem C5_polysemy_clustering :
    (∀ defs : List String, 10 < defs.length →
      clusterIdsGroup defs = List.replicate defs.length 1) ∧
    (∀ defs : List String, clusterIdsGroup defs = specClusterIds defs) ∧
    (∀ (rows : List (String × String)) (k : Nat), k < rows.length →
      ∃ p, (groupIndices rows (rows.getD k ("", "")).1).findIdx?
          (fun j => j == k) = some p ∧
        (cluster_polysemic_senses rows).get? k =
          some ((specClusterIds ((groupIndices rows (rows.getD k ("", "")).1).map
            (fun j => (rows.getD j ("", "")).2))).getD p 1)) := by
  refine ⟨?_, clusterIdsGroup_eq_spec, ?_⟩
  · intro defs h10
    unfold clusterIdsGroup
    rw [if_pos (Or.inr h10)]
  · intro rows k hk
    have hkg : k ∈ groupIndices rows (rows.getD k ("", "")).1 := by
      unfold groupIndices
      rw [List.mem_filter]
      exact ⟨List.mem_range.mpr hk, by simp⟩
    have hsome : ((groupIndices rows (rows.getD k ("", "")).1).findIdx?
        (fun j => j == k)).isSome = true := by
      rw [List.findIdx?_isSome, List.any_eq_true]
      exact ⟨k, hkg, by simp⟩
    obtain ⟨p, hp⟩ := Option.isSome_iff_exists.mp hsome
    refine ⟨p, hp, ?_⟩
    unfold cluster_polysemic_senses
    rw [List.get?_eq_getElem?, List.getElem?_map,
      List.getElem?_range hk]
    simp only [Option.map_some']
    rw [hp]
    rw [clusterIdsGroup_eq_spec]

/-! ### Concrete inputs for counterexamples and witnesses -/

/-- Scenario B Spanish row: two Hebrew translations, both matched. -/
def esB : EsEntry := ⟨"banco", "ipaB", "noun", ["asiento", "entidad"], ["safsal", "bank"]⟩

def heS : HeEntry := ⟨"safsal", "ipaS", ["asiento largo"]⟩

def heB : HeEntry := ⟨"bank", "ipaK", ["entidad financiera"]⟩

/-- Scenario C Spanish row: no direct translations, bridged via English. -/
def esL : EsEntry := ⟨"libro", "ipaL", "noun", ["conjunto de hojas"], []⟩

def heSefer : HeEntry := ⟨"sefer", "ipaSf", ["libro"]⟩

def brBook : BridgeEntry := ⟨"libro", "es", ["sefer"]⟩

/-- A Spanish row with one matched translation (used duplicated). -/
def esA : EsEntry := ⟨"a", "i", "n", ["d"], ["x"]⟩

def heX : HeEntry := ⟨"x", "ix", ["dx"]⟩

/-- A Spanish row with no translations whose definition text fuzzy-matches
exactly. -/
def esF : EsEntry := ⟨"a", "i", "n", ["hola"], []⟩

def heH : HeEntry := ⟨"h", "ih", ["hola"]⟩

/-- A Spanish row whose only fuzzy match scores the non-integer 600/7. -/
def esG : EsEntry := ⟨"g", "i", "n", ["abcdefg"], []⟩

def heG : HeEntry := ⟨"h2", "ih2", ["abcdefh"]⟩

/-- Two Hebrew rows with identical concatenated-definitions strings. -/
def he1 : HeEntry := ⟨"first", "i1", ["hola"]⟩

def he2 : HeEntry := ⟨"second", "i2", ["hola"]⟩

def exRow : ExampleRow := ⟨"es pal", "he pal", ["libro"], ["sefer"]⟩

/-! ### Concrete score and extractOne evaluations -/

lemma ratio_hola : fuzzRatioScore "hola" "hola" = 100 := by
  unfold fuzzRatioScore
  norm_num [show lcsChars "hola".data "hola".data = 4 from by decide,
    show "hola".data.length = 4 from by decide]

lemma ratio_abc : fuzzRatioScore "abcdefg" "abcdefh" = 600 / 7 := by
  unfold fuzzRatioScore
  norm_num [show lcsChars "abcdefg".data "abcdefh".data = 6 from by decide,
    show "abcdefg".data.length = 7 from by decide,
    show "abcdefh".data.length = 7 from by decide]

lemma extract_hola : extractOne "hola" ["hola"] 80 = some ("hola", 100) := by
  unfold extractOne
  rw [List.foldl_cons, List.foldl_nil]
  show (if (80 : ℚ) ≤ fuzzRatioScore "hola" "hola"
    then some ("hola", fuzzRatioScore "hola" "hola") else none) = some ("hola", 100)
  rw [ratio_hola]
  norm_num

lemma extract_hola2 : extractOne "hola" ["hola", "hola"] 80 = some ("hola", 100) := by
  unfold extractOne
  rw [List.foldl_cons, List.foldl_cons, List.foldl_nil]
  have h1 : extractStep "hola" 80 none "hola" = some ("hola", 100) := by
    show (if (80 : ℚ) ≤ fuzzRatioScore "hola" "hola"
      then some ("hola", fuzzRatioScore "hola" "hola") else none) = some ("hola", 100)
    rw [ratio_hola]
    norm_num
  rw [h1]
  show (if (100 : ℚ) < fuzzRatioScore "hola" "hola"
    then some ("hola", fuzzRatioScore "hola" "hola")
    else some ("hola", 100)) = some ("hola", 100)
  rw [ratio_hola]
  norm_num

lemma extract_abc : extractOne "abcdefg" ["abcdefh"] 80 = some ("abcdefh", 600 / 7) := by
  unfold extractOne
  rw [List.foldl_cons, List.foldl_nil]
  show (if (80 : ℚ) ≤ fuzzRatioScore "abcdefg" "abcdefh"
    then some ("abcdefh", fuzzRatioScore "abcdefg" "abcdefh") else none) =
    some ("abcdefh", 600 / 7)
  rw [ratio_abc]
  norm_num

lemma fuzzyForEntry_esF :
    fuzzyForEntry [heH] (heDefinitionsList [heH]) esF = [mkFuzzy esF heH 100] := by
  unfold fuzzyForEntry
  rw [show heDefinitionsList [heH] = ["hola"] from rfl,
    show esDefText esF = "hola" from rfl, extract_hola]
  rfl

lemma align_eval_c1 : align_languages [esF, esF] [heH] none =
    [mkFuzzy esF heH 100, mkFuzzy esF heH 100] := by
  rw [align_languages_eq]
  rw [show directAlignments [esF, esF] [heH] = [] from rfl,
    show triPart [esF, esF] [heH] none = [] from rfl]
  show fuzzyPass [esF, esF] [heH] [] = _
  unfold fuzzyPass
  rw [show ([esF, esF].filter
      (fun es => !decide (es.word ∈ ([] : List String)))) = [esF, esF] from rfl]
  rw [List.flatMap_cons, List.flatMap_cons, List.flatMap_nil, fuzzyForEntry_esF]
  rfl

lemma fuzzyForEntry_esG :
    fuzzyForEntry [heG] (heDefinitionsList [heG]) esG = [mkFuzzy esG heG (600 / 7)] := by
  unfold fuzzyForEntry
  rw [show heDefinitionsList [heG] = ["abcdefh"] from rfl,
    show esDefText esG = "abcdefg" from rfl, extract_abc]
  rfl

lemma align_eval_c4 : align_languages [esG] [heG] none = [mkFuzzy esG heG (600 / 7)] := by
  rw [align_languages_eq]
  rw [show directAlignments [esG] [heG] = [] from rfl,
    show triPart [esG] [heG] none = [] from rfl]
  show fuzzyPass [esG] [heG] [] = _
  unfold fuzzyPass
  rw [show ([esG].filter
      (fun es => !decide (es.word ∈ ([] : List String)))) = [esG] from rfl]
  rw [List.flatMap_cons, List.flatMap_nil, fuzzyForEntry_esG]
  rfl

/-! ### Counterexamples -/

/-- C1 counterexample: with the Spanish collection containing the headword
`"a"` twice, the word `"a"` appears in two output rows although neither is
a Strategy-1 (direct) row — both duplicates are fuzzy-aligned, refuting
"the only way an es_word appears in multiple output rows is through
Strategy 1 itself emitting multiple senses". -/
theorem C1_counterexample :
    (align_languages [esF, esF] [heH] none).countP (fun a => a.es_word == "a") = 2 ∧
    (align_languages [esF, esF] [heH] none).countP
      (fun a => a.es_word == "a" && a.match_type == MatchType.direct) = 0 := by
  rw [align_eval_c1]
  exact ⟨rfl, rfl⟩

/-- C4 counterexample: the fuzzy score interpolated into `match_type` is
`600/7`, which lies strictly between 85 and 86 and is therefore not an
integer, refuting "`<score>` is an integer between 0 and 100". -/
theorem C4_counterexample :
    (align_languages [esG] [heG] none).map (fun a => a.match_type) =
      [MatchType.fuzzy (600 / 7)] ∧
    (85 : ℚ) < 600 / 7 ∧ (600 / 7 : ℚ) < 86 := by
  refine ⟨?_, by norm_num, by norm_num⟩
  rw [align_eval_c4]
  rfl

/-- C7 counterexample: with the Spanish collection containing an identical
entry twice, Strategy 1 emits the triple `("a", "x", 1)` twice — the output
is not deduplicated. -/
theorem C7_counterexample :
    (align_languages [esA, esA] [heX] none).countP
      (fun a => a.es_word == "a" && a.he_word == "x" && a.sense_id == 1) = 2 := by
  decide

/-! ### Witnesses -/

theorem C1_priority_exclusive_witness :
    (([esB].map (fun es => es.word)).Nodup ∧
      2 ≤ (align_languages [esB] [heS, heB] none).countP (fun a => a.es_word == "banco")) ∧
    (mkDirect esB 0 "safsal" heS).match_type = MatchType.direct :=
  ⟨⟨by decide, by decide⟩,
    (C1_priority_exclusive [esB] [heS, heB] none).2.2 (by decide) "banco" (by decide)
      (mkDirect esB 0 "safsal" heS) (by decide) (by decide)⟩

theorem C2_direct_strategy_witness :
    mkDirect esB 1 "bank" heB ∈ align_languages [esB] [heS, heB] none :=
  ((C2_direct_strategy [esB] [heS, heB] none).1 esB (by decide) 1 "bank" heB
    (by decide) (by decide)).1

theorem C3_triangulation_strategy_witness :
    (mkTri esL "sefer" heSefer).sense_id = 1 :=
  ((C3_triangulation_strategy [esL] [heSefer] (some [brBook])).2
    (mkTri esL "sefer" heSefer) (by decide) rfl).1

theorem C4_fuzzy_scoring_witness :
    (mkFuzzy esG heG (600 / 7)).confidence = some ((600 / 7 : ℚ) / 100) :=
  ((C4_fuzzy_scoring [esG] [heG] none (mkFuzzy esG heG (600 / 7))
      (by rw [align_eval_c4]; exact List.mem_singleton.mpr rfl)).1 (600 / 7) rfl).2.2.1

theorem C5_polysemy_clustering_witness :
    clusterIdsGroup (List.replicate 11 "d") =
      List.replicate (List.replicate 11 "d").length 1 :=
  C5_polysemy_clustering.1 (List.replicate 11 "d") (by decide)

theorem C6_enrichment_witness :
    (enrich_entries [mkTri esL "sefer" heSefer] [exRow]).get? 0 =
      some { alignment := mkTri esL "sefer" heSefer,
             examples := matchingExamples [exRow] (mkTri esL "sefer" heSefer) } :=
  ((C6_enrichment [mkTri esL "sefer" heSefer] [exRow]).2 0
    (mkTri esL "sefer" heSefer) (by decide)).1

theorem C7_no_duplicate_triples_witness :
    (align_languages [esB] [heS, heB] none).countP
      (fun a => a.es_word == "banco" && a.he_word == "safsal" && a.sense_id == 1) ≤ 1 :=
  C7_no_duplicate_triples [esB] [heS, heB] none (by decide) "banco" "safsal" 1

theorem C8_empty_and_no_raise_witness :
    align_languages [] [] none = [] ∧
    (heCandidatesLookup [heH] "hola").isSome = true :=
  ⟨C8_empty_and_no_raise.1 none,
   Option.isSome_iff_exists.mpr (C8_empty_and_no_raise.2.2 [heH] "hola" (by decide))⟩

theorem C10_index_collision_witness :
    fuzzyForEntry [he1, he2] (heDefinitionsList [he1, he2]) esF = [mkFuzzy esF he2 100] :=
  ((C10_index_collision [] [] [] he1 he2 "hola" rfl rfl (by decide) (by decide)
      (fun x hx => absurd hx (by simp))).2 esF 100 (by decide)
    (by rw [show heDefinitionsList ([] ++ he1 :: [] ++ he2 :: []) = ["hola", "hola"]
          from rfl,
        show esDefText esF = "hola" from rfl]
        exact extract_hola2)).1

end Rosetta
